import Mathlib

/-! robinhood-export: pagination, id collection, indexing and concurrent detail loading.

A shallow embedding of `cmd/robinhood-export/common.go`.

* Go values of static type `interface{}` are values of `Value`, which keeps the
  dynamic type that a type assertion inspects.
* A pointer to a record is an `Option` of the record, with `none` for the nil pointer.
* A failed type assertion and a field read through a nil pointer are run-time panics.
  Functions that can panic return `Option`, with `none` for the panic.
* A Go `error` is `Option ε`, with `none` for the nil error.
* The unbounded `for` of `loadList` is run with fuel.
* `loadDetails` is a transition system over the dispatcher goroutine, the
  per-id goroutines and the consuming loop, together with the caller's context, which
  may be done at the call or be cancelled at any moment of it.
-/

namespace RobinhoodExport

/-! ## Data model -/

/-- Modelled from the spec: the record type `robinhood.Instrument` is declared outside
`common.go`.  The source reads its string fields `URL` and `Market`; all other fields
are kept together in `rest`.  A `*robinhood.Instrument` is an `Option Instrument`, with
`none` for the nil pointer. -/
structure Instrument where
  URL : String
  Market : String
  rest : List (String × String)
  deriving DecidableEq, Repr

/-- Modelled from the spec: the record type `robinhood.Market` is declared outside
`common.go`.  The source reads its string field `URL`; all other fields are kept
together in `rest`.  A `*robinhood.Market` is an `Option Market`, with `none` for the
nil pointer. -/
structure Market where
  URL : String
  rest : List (String × String)
  deriving DecidableEq, Repr

/-- A Go value of static type `interface{}` together with its dynamic type. -/
inductive Value where
  /-- The nil interface value. -/
  | nil : Value
  /-- Dynamic type `string`. -/
  | str (s : String) : Value
  /-- Dynamic type `int`. -/
  | int (n : Int) : Value
  /-- Dynamic type `*robinhood.Instrument`. -/
  | instrument (p : Option Instrument) : Value
  /-- Dynamic type `*robinhood.Market`. -/
  | market (p : Option Market) : Value
  /-- Dynamic type `[]interface{}`. -/
  | slice (xs : List Value) : Value
  /-- Dynamic type `[]*robinhood.Instrument`. -/
  | instruments (xs : List (Option Instrument)) : Value
  /-- Dynamic type `[]*robinhood.Market`. -/
  | markets (xs : List (Option Market)) : Value

/-- A Go `map[string]β`: a lookup that is `none` on the keys that are absent. -/
def GoMap (β : Type) : Type := String → Option β

/-- The empty map made by `map[string]β{}` or `make`. -/
def GoMap.empty {β : Type} : GoMap β := fun _ => none

/-- The assignment `m[k] = v`. -/
def GoMap.set {β : Type} (m : GoMap β) (k : String) (v : β) : GoMap β :=
  fun k' => if k' = k then some v else m k'

/-- The index expression `m[k]` of a `map[string]bool`: the zero value `false` when
the key is absent. -/
def GoMap.index (m : GoMap Bool) (k : String) : Bool := (m k).getD false

/-! ## loadList -/

/-- What one call of a `listLoadFunc` returns: `(interface{}, string, error)`. -/
structure PageResult (ε : Type) where
  items : Value
  cursor : String
  err : Option ε

/-- The type `listLoadFunc`.  A Go function may answer differently from one invocation
to the next, so it is a state transformer over its own state `σ`; `κ` is the type of
the context handed through. -/
abbrev listLoadFunc (κ σ ε : Type) : Type := κ → String → σ → PageResult ε × σ

/-- How a run of `loadList` ends. -/
inductive ListOutcome (ε : Type) where
  /-- The function returned `(result, err)`; a nil interface or nil error is `none`. -/
  | returned (result : Option Value) (err : Option ε) : ListOutcome ε
  /-- The assertion `items.([]interface{})` failed. -/
  | panicked : ListOutcome ε
  /-- The loop was still running when the fuel ran out. -/
  | running : ListOutcome ε

/-- A run of `loadList`: how it ended, the cursor argument of every invocation of the
load function in order, and the state the load function was left in. -/
structure ListRun (σ ε : Type) where
  outcome : ListOutcome ε
  calls : List String
  final : σ

/-- The `for` loop of `loadList` (lines 19-28).  `cursor` is the variable declared on
line 18.  Line 20 declares `items`, `cursor` and `err` anew in the scope of the loop
body with `:=`, so the cursor tested on line 25 is the one just returned, while the
variable of line 18, which is the argument of the call, is never assigned. -/
def loadListLoop {κ σ ε : Type} (ctx : κ) (loadFunc : listLoadFunc κ σ ε) (cursor : String) :
    Nat → σ → List Value → List String → ListRun σ ε
  | 0, s, _, calls => ⟨.running, calls, s⟩
  | fuel + 1, s, result, calls =>
    let r := loadFunc ctx cursor s
    let calls' := calls ++ [cursor]
    match r.1.err with
    | some err => ⟨.returned none (some err), calls', r.2⟩
    | none =>
      match r.1.items with
      | .slice xs =>
        let result' := result ++ xs
        if r.1.cursor = "" then ⟨.returned (some (.slice result')) none, calls', r.2⟩
        else loadListLoop ctx loadFunc cursor fuel r.2 result' calls'
      | _ => ⟨.panicked, calls', r.2⟩

/-- The function `loadList` (lines 16-30), run for at most `fuel` iterations from the
state `s` of the load function. -/
def loadList {κ σ ε : Type} (ctx : κ) (loadFunc : listLoadFunc κ σ ε) (fuel : Nat) (s : σ) :
    ListRun σ ε :=
  loadListLoop ctx loadFunc "" fuel s [] []

/-! ## getIds and getInstrumentsMarketIds -/

/-- The type `getIdFunc`; `none` when the function panics. -/
abbrev getIdFunc : Type := Value → Option String

/-- The `range` loop of `getIds` (lines 83-89) over the remaining items, with the
current `set` and `ids`. -/
def getIdsLoop (idFunc : getIdFunc) : List Value → GoMap Bool → List String → Option (List String)
  | [], _, ids => some ids
  | item :: rest, set, ids =>
    match idFunc item with
    | none => none
    | some id =>
      if !set.index id then getIdsLoop idFunc rest (set.set id true) (ids ++ [id])
      else getIdsLoop idFunc rest set ids

/-- The function `getIds` (lines 80-91).  The assertion `items.([]interface{})` holds
only of a value whose dynamic type is `[]interface{}` and panics on every other. -/
def getIds (items : Value) (idFunc : getIdFunc) : Option (List String) :=
  match items with
  | .slice xs => getIdsLoop idFunc xs GoMap.empty []
  | _ => none

/-- The function literal of lines 94-96: `instrument.(*robinhood.Instrument).Market`.
It panics when the assertion fails and when the pointer is nil. -/
def instrumentMarket : getIdFunc
  | .instrument (some p) => some p.Market
  | _ => none

/-- The function `getInstrumentsMarketIds` (lines 93-97).  The argument of static type
`[]*robinhood.Instrument` is converted to `interface{}` with that dynamic type. -/
def getInstrumentsMarketIds (instruments : List (Option Instrument)) :
    Option (List String) :=
  getIds (.instruments instruments) instrumentMarket

/-- The list of the strings of `xs` with every repeat after the first occurrence
removed, following the words of the specification of the id collector. -/
def firstOccurrences : List String → List String
  | [] => []
  | x :: xs => x :: (firstOccurrences xs).filter (fun y => decide (y ≠ x))

/-! ## getInstrumentByURL and getMarketByURL -/

/-- The `range` loop of `getInstrumentByURL` (lines 129-131) over the remaining
pointers, with the current map; `none` when `instrument.URL` (line 130) is read through
a nil pointer, which panics. -/
def getInstrumentByURLLoop :
    List (Option Instrument) → GoMap (Option Instrument) → Option (GoMap (Option Instrument))
  | [], m => some m
  | none :: _, _ => none
  | some instrument :: rest, m =>
    getInstrumentByURLLoop rest (m.set instrument.URL (some instrument))

/-- The function `getInstrumentByURL` (lines 127-133); `none` when it panics. -/
def getInstrumentByURL (instruments : List (Option Instrument)) :
    Option (GoMap (Option Instrument)) :=
  getInstrumentByURLLoop instruments GoMap.empty

/-- The `range` loop of `getMarketByURL` (lines 137-139) over the remaining pointers,
with the current map; `none` when `market.URL` (line 138) is read through a nil
pointer, which panics. -/
def getMarketByURLLoop :
    List (Option Market) → GoMap (Option Market) → Option (GoMap (Option Market))
  | [], m => some m
  | none :: _, _ => none
  | some market :: rest, m => getMarketByURLLoop rest (m.set market.URL (some market))

/-- The function `getMarketByURL` (lines 135-141); `none` when it panics. -/
def getMarketByURL (markets : List (Option Market)) : Option (GoMap (Option Market)) :=
  getMarketByURLLoop markets GoMap.empty

/-! ## loadDetails

The call is a system of goroutines: the dispatcher started on line 43, one task per id
started on line 57, and the caller, which consumes `resultsCh` on lines 66-77.  A state
records where each of them stands together with the shared objects; a step is one
action of one goroutine, or the cancellation of the caller's context.  The context of
line 41 is derived from the caller's: it is done from the start when the caller's is
done at the call, and it becomes done when the caller's context is cancelled during the
call or when the `cancel()` of line 70 runs. -/

/-- The constant `maxConcurrency` (line 32). -/
def maxConcurrency : Nat := 10

/-- The struct `result` (lines 36-39). -/
structure FetchResult (α ε : Type) where
  item : α
  err : Option ε
  deriving DecidableEq, Repr

/-- The type `itemLoadFunc` over items of type `α`.  What the function can observe of
its context is whether it has been cancelled; the answer may depend on that, taken at
the moment the call returns, and on the id. -/
abbrev itemLoadFunc (α ε : Type) : Type := Bool → String → FetchResult α ε

/-- Where the dispatcher goroutine (lines 43-64) stands. -/
inductive DispatcherPc where
  /-- Line 50: about to take `ids[i]` from the range, or to leave the loop. -/
  | loop (i : Nat) : DispatcherPc
  /-- Lines 52-56: `wg.Add(1)` is done for `ids[i]`, waiting in the `select`. -/
  | select (i : Nat) : DispatcherPc
  /-- Line 57: a slot is acquired, about to run the `go` statement for `ids[i]`. -/
  | spawn (i : Nat) : DispatcherPc
  /-- Line 46: in the deferred function, waiting in `wg.Wait()`. -/
  | wait : DispatcherPc
  /-- Line 47: about to run `close(resultsCh)`. -/
  | close : DispatcherPc
  /-- The goroutine has ended. -/
  | exited : DispatcherPc
  deriving DecidableEq, Repr

/-- Where a task goroutine (lines 57-62) stands. -/
inductive TaskPc (α ε : Type) where
  /-- Line 58: about to invoke `loadFunc`. -/
  | call : TaskPc α ε
  /-- Line 58: `loadFunc` has been invoked and has not returned. -/
  | fetching : TaskPc α ε
  /-- Line 59: waiting to send the result on `resultsCh`. -/
  | send (r : FetchResult α ε) : TaskPc α ε
  /-- Line 60: about to run `wg.Done()`. -/
  | done : TaskPc α ε
  /-- Line 61: about to receive from `sem`. -/
  | release : TaskPc α ε
  /-- The goroutine has ended. -/
  | exited : TaskPc α ε
  deriving DecidableEq, Repr

/-- Where the caller (lines 66-77) stands. -/
inductive ConsumerPc (α ε : Type) where
  /-- Line 67: waiting on `resultsCh` in the outer `range`. -/
  | receive : ConsumerPc α ε
  /-- Line 70: an error result was received, about to run `cancel()`. -/
  | cancel (err : ε) : ConsumerPc α ε
  /-- Lines 71-72: waiting on `resultsCh` in the draining `range`. -/
  | drain (err : ε) : ConsumerPc α ε
  /-- Lines 73 and 77: `loadDetails` has returned `(items, err)`. -/
  | returned (items : Option (List α)) (err : Option ε) : ConsumerPc α ε
  deriving DecidableEq, Repr

/-- A state of a call of `loadDetails`. -/
structure State (α ε : Type) where
  /-- The dispatcher goroutine. -/
  disp : DispatcherPc
  /-- The counter of the wait group `wg`. -/
  wg : Nat
  /-- The number of values buffered in the channel `sem`. -/
  sem : Nat
  /-- Whether `ctx.Done()` is closed. -/
  cancelled : Bool
  /-- Whether `resultsCh` is closed. -/
  closed : Bool
  /-- The task goroutines in the order they were started, each with its id. -/
  tasks : List (String × TaskPc α ε)
  /-- The slice `items` of line 66. -/
  items : List α
  /-- The caller. -/
  cons : ConsumerPc α ε
  deriving DecidableEq, Repr

/-- One action of one goroutine. -/
inductive Label where
  /-- Dispatcher, lines 50-51: the range yields the next id and `wg.Add(1)` runs. -/
  | next : Label
  /-- Dispatcher, line 50: the range is exhausted and the deferred function starts. -/
  | leave : Label
  /-- Dispatcher, line 53: the `select` takes `sem <- nil`. -/
  | acquire : Label
  /-- Dispatcher, lines 54-55: the `select` takes `<-ctx.Done()` and returns, which
  starts the deferred function. -/
  | abandon : Label
  /-- Dispatcher, line 57: the `go` statement. -/
  | go : Label
  /-- Dispatcher, line 46: `wg.Wait()` returns. -/
  | waited : Label
  /-- Dispatcher, line 47: `close(resultsCh)`. -/
  | close : Label
  /-- Task `k`, line 58: `loadFunc` is invoked. -/
  | call (k : Nat) : Label
  /-- Task `k`, line 58: `loadFunc` returns. -/
  | ret (k : Nat) : Label
  /-- Task `k`, line 59, and the caller, line 67 or 71: the result passes over the
  unbuffered `resultsCh`. -/
  | send (k : Nat) : Label
  /-- Task `k`, line 60: `wg.Done()`. -/
  | done (k : Nat) : Label
  /-- Task `k`, line 61: `<-sem`. -/
  | release (k : Nat) : Label
  /-- Caller, line 70: `cancel()`. -/
  | cancel : Label
  /-- Caller, line 67 or 71: the `range` finds `resultsCh` closed and the function
  returns on line 77 or 73. -/
  | finish : Label
  /-- Outside of `loadDetails`: the caller's context is cancelled, which closes the
  `ctx.Done()` of the derived context. -/
  | ctxDone : Label
  deriving DecidableEq, Repr

/-- The state in which `loadDetails` starts: the dispatcher goroutine is started, `wg`
and `sem` are fresh, and the caller is at the outer `range` with empty `items`.  The
derived context of line 41 is done from the start exactly when the caller's context is
done at the call, which is what `done` tells. -/
def init {α ε : Type} (done : Bool) : State α ε :=
  ⟨.loop 0, 0, 0, done, false, [], [], .receive⟩

/-- The step the action `l` makes from the state `s`, or `none` when the action is
not enabled there.  A send on the full `sem`, a receive from the empty `sem`, a
`wg.Wait()` with a non-zero counter and a receive or send on `resultsCh` without a
partner block, so they are not enabled.  A send on the closed `resultsCh` and a
`wg.Done()` at counter zero would panic; they have no step either, and by
`guards_hold` no task of a call is ever in that position. -/
def step {α ε : Type} (ids : List String) (loadFunc : itemLoadFunc α ε) (l : Label)
    (s : State α ε) : Option (State α ε) :=
  match l with
  | .next =>
    match s.disp with
    | .loop i => if i < ids.length then some { s with disp := .select i, wg := s.wg + 1 } else none
    | _ => none
  | .leave =>
    match s.disp with
    | .loop i => if ids.length ≤ i then some { s with disp := .wait } else none
    | _ => none
  | .acquire =>
    match s.disp with
    | .select i =>
      if s.sem < maxConcurrency then some { s with disp := .spawn i, sem := s.sem + 1 } else none
    | _ => none
  | .abandon =>
    match s.disp with
    | .select _ => if s.cancelled then some { s with disp := .wait } else none
    | _ => none
  | .go =>
    match s.disp with
    | .spawn i =>
      match ids[i]? with
      | some id => some { s with disp := .loop (i + 1), tasks := s.tasks ++ [(id, .call)] }
      | none => none
    | _ => none
  | .waited =>
    match s.disp with
    | .wait => if s.wg = 0 then some { s with disp := .close } else none
    | _ => none
  | .close =>
    match s.disp with
    | .close => some { s with disp := .exited, closed := true }
    | _ => none
  | .call k =>
    match s.tasks[k]? with
    | some (id, .call) => some { s with tasks := s.tasks.set k (id, .fetching) }
    | _ => none
  | .ret k =>
    match s.tasks[k]? with
    | some (id, .fetching) =>
      some { s with tasks := s.tasks.set k (id, .send (loadFunc s.cancelled id)) }
    | _ => none
  | .send k =>
    match s.tasks[k]? with
    | some (id, .send r) =>
      if s.closed then none
      else
        match s.cons with
        | .receive =>
          match r.err with
          | some err => some { s with tasks := s.tasks.set k (id, .done), cons := .cancel err }
          | none => some { s with tasks := s.tasks.set k (id, .done), items := s.items ++ [r.item] }
        | .drain _ => some { s with tasks := s.tasks.set k (id, .done) }
        | _ => none
    | _ => none
  | .done k =>
    match s.tasks[k]? with
    | some (id, .done) =>
      if 0 < s.wg then some { s with tasks := s.tasks.set k (id, .release), wg := s.wg - 1 }
      else none
    | _ => none
  | .release k =>
    match s.tasks[k]? with
    | some (id, .release) =>
      if 0 < s.sem then some { s with tasks := s.tasks.set k (id, .exited), sem := s.sem - 1 }
      else none
    | _ => none
  | .cancel =>
    match s.cons with
    | .cancel err => some { s with cancelled := true, cons := .drain err }
    | _ => none
  | .finish =>
    if s.closed then
      match s.cons with
      | .receive => some { s with cons := .returned (some s.items) none }
      | .drain err => some { s with cons := .returned none (some err) }
      | _ => none
    else none
  | .ctxDone => if s.cancelled then none else some { s with cancelled := true }

/-- The state reached from `s` by the actions of `tr` in order, or `none` when one of
them is not enabled. -/
def exec {α ε : Type} (ids : List String) (loadFunc : itemLoadFunc α ε) :
    List Label → State α ε → Option (State α ε)
  | [], s => some s
  | l :: tr, s => (step ids loadFunc l s).bind (exec ids loadFunc tr)

/-- Whether a task is inside `loadFunc`. -/
def TaskPc.inFlight {α ε : Type} : TaskPc α ε → Nat
  | .fetching => 1
  | _ => 0

/-- Whether a task holds a slot of `sem`: from its start until it has received from
`sem`. -/
def TaskPc.holdsSlot {α ε : Type} : TaskPc α ε → Nat
  | .exited => 0
  | _ => 1

/-- Whether a task is counted in `wg`: from its start until it has run `wg.Done()`. -/
def TaskPc.counted {α ε : Type} : TaskPc α ε → Nat
  | .call => 1
  | .fetching => 1
  | .send _ => 1
  | .done => 1
  | _ => 0

/-- The number of invocations of `loadFunc` that have started and not yet returned. -/
def inFlight {α ε : Type} (s : State α ε) : Nat :=
  (s.tasks.map (fun t => t.2.inFlight)).sum

/-- Whether `loadDetails` has returned. -/
def State.hasReturned {α ε : Type} (s : State α ε) : Bool :=
  match s.cons with
  | .returned _ _ => true
  | _ => false

/-- The function `loadDetails` (lines 35-78) under the schedule `tr`, called with a
context that is done at the call exactly when `done` holds: what the call has returned
once the steps of `tr` are taken, and `none` when the call has not returned by then or
`tr` is not a schedule of the call. -/
def loadDetails {α ε : Type} (done : Bool) (ids : List String)
    (loadFunc : itemLoadFunc α ε) (tr : List Label) : Option (Option (List α) × Option ε) :=
  match exec ids loadFunc tr (init done) with
  | some s =>
    match s.cons with
    | .returned items err => some (items, err)
    | _ => none
  | none => none

/-! ## loadDetails: counters, rules and invariants -/

/-- Whether the dispatcher holds a slot of `sem` that no task has taken over yet. -/
def DispatcherPc.holdsSlot : DispatcherPc → Nat
  | .spawn _ => 1
  | _ => 0

/-- Whether the dispatcher has run `wg.Add(1)` for a task it has not started yet. -/
def DispatcherPc.counted : DispatcherPc → Nat
  | .select _ => 1
  | .spawn _ => 1
  | _ => 0

/-- The number of tasks that hold a slot of `sem`. -/
def slotsHeld {α ε : Type} (tasks : List (String × TaskPc α ε)) : Nat :=
  (tasks.map (fun t => t.2.holdsSlot)).sum

/-- The number of tasks that are counted in `wg`. -/
def tasksCounted {α ε : Type} (tasks : List (String × TaskPc α ε)) : Nat :=
  (tasks.map (fun t => t.2.counted)).sum

/-- The steps of `step`, one rule for each way an action is enabled. -/
inductive Step {α ε : Type} (ids : List String) (loadFunc : itemLoadFunc α ε) :
    Label → State α ε → State α ε → Prop where
  | next {s : State α ε} (i : Nat) (hd : s.disp = .loop i) (hi : i < ids.length) :
    Step ids loadFunc .next s { s with disp := .select i, wg := s.wg + 1 }
  | leave {s : State α ε} (i : Nat) (hd : s.disp = .loop i) (hi : ids.length ≤ i) :
    Step ids loadFunc .leave s { s with disp := .wait }
  | acquire {s : State α ε} (i : Nat) (hd : s.disp = .select i) (hsem : s.sem < maxConcurrency) :
    Step ids loadFunc .acquire s { s with disp := .spawn i, sem := s.sem + 1 }
  | abandon {s : State α ε} (i : Nat) (hd : s.disp = .select i) (hc : s.cancelled = true) :
    Step ids loadFunc .abandon s { s with disp := .wait }
  | go {s : State α ε} (i : Nat) (id : String) (hd : s.disp = .spawn i) (hid : ids[i]? = some id) :
    Step ids loadFunc .go s { s with disp := .loop (i + 1), tasks := s.tasks ++ [(id, .call)] }
  | waited {s : State α ε} (hd : s.disp = .wait) (hwg : s.wg = 0) :
    Step ids loadFunc .waited s { s with disp := .close }
  | close {s : State α ε} (hd : s.disp = .close) :
    Step ids loadFunc .close s { s with disp := .exited, closed := true }
  | call {s : State α ε} (k : Nat) (id : String) (ht : s.tasks[k]? = some (id, .call)) :
    Step ids loadFunc (.call k) s { s with tasks := s.tasks.set k (id, .fetching) }
  | ret {s : State α ε} (k : Nat) (id : String) (ht : s.tasks[k]? = some (id, .fetching)) :
    Step ids loadFunc (.ret k) s
      { s with tasks := s.tasks.set k (id, .send (loadFunc s.cancelled id)) }
  | sendErr {s : State α ε} (k : Nat) (id : String) (r : FetchResult α ε) (err : ε)
      (ht : s.tasks[k]? = some (id, .send r)) (hcl : s.closed = false)
      (hc : s.cons = .receive) (hr : r.err = some err) :
    Step ids loadFunc (.send k) s
      { s with tasks := s.tasks.set k (id, .done), cons := .cancel err }
  | sendOk {s : State α ε} (k : Nat) (id : String) (r : FetchResult α ε)
      (ht : s.tasks[k]? = some (id, .send r)) (hcl : s.closed = false)
      (hc : s.cons = .receive) (hr : r.err = none) :
    Step ids loadFunc (.send k) s
      { s with tasks := s.tasks.set k (id, .done), items := s.items ++ [r.item] }
  | sendDrain {s : State α ε} (k : Nat) (id : String) (r : FetchResult α ε) (err : ε)
      (ht : s.tasks[k]? = some (id, .send r)) (hcl : s.closed = false)
      (hc : s.cons = .drain err) :
    Step ids loadFunc (.send k) s { s with tasks := s.tasks.set k (id, .done) }
  | done {s : State α ε} (k : Nat) (id : String) (ht : s.tasks[k]? = some (id, .done))
      (hwg : 0 < s.wg) :
    Step ids loadFunc (.done k) s
      { s with tasks := s.tasks.set k (id, .release), wg := s.wg - 1 }
  | release {s : State α ε} (k : Nat) (id : String) (ht : s.tasks[k]? = some (id, .release))
      (hsem : 0 < s.sem) :
    Step ids loadFunc (.release k) s
      { s with tasks := s.tasks.set k (id, .exited), sem := s.sem - 1 }
  | cancel {s : State α ε} (err : ε) (hc : s.cons = .cancel err) :
    Step ids loadFunc .cancel s { s with cancelled := true, cons := .drain err }
  | finishOk {s : State α ε} (hcl : s.closed = true) (hc : s.cons = .receive) :
    Step ids loadFunc .finish s { s with cons := .returned (some s.items) none }
  | finishErr {s : State α ε} (err : ε) (hcl : s.closed = true) (hc : s.cons = .drain err) :
    Step ids loadFunc .finish s { s with cons := .returned none (some err) }
  | ctxDone {s : State α ε} (hlive : s.cancelled = false) :
    Step ids loadFunc .ctxDone s { s with cancelled := true }

/-- What holds in every state of a call: the values buffered in `sem` are the slots
held by the tasks and the dispatcher, and they are at most `maxConcurrency`; `wg`
counts at least the tasks that have not run `wg.Done()`, and none is left once
`wg.Wait()` has returned; `resultsCh` is closed by the dispatcher as its last action,
and `loadDetails` returns only after that, with items and a nil error or with no
items and an error. -/
structure Inv {α ε : Type} (s : State α ε) : Prop where
  slots : s.sem = slotsHeld s.tasks + s.disp.holdsSlot
  bound : s.sem ≤ maxConcurrency
  counted : tasksCounted s.tasks + s.disp.counted ≤ s.wg
  quiet : s.disp = .close ∨ s.disp = .exited → tasksCounted s.tasks = 0
  shut : s.closed = true → s.disp = .exited
  back : s.hasReturned = true → s.closed = true
  shape : ∀ items err, s.cons = .returned items err →
    (items = some s.items ∧ err = none) ∨ (items = none ∧ ∃ e, err = some e)

/-- Where the dispatcher stands relative to the number of tasks started so far and the
number of ids, as long as it has not abandoned the loop. -/
def DispatcherPc.position (started total : Nat) : DispatcherPc → Prop
  | .loop i => started = i ∧ i ≤ total
  | .select i => started = i ∧ i < total
  | .spawn i => started = i ∧ i < total
  | _ => started = total

/-- Whether a task has passed its result to the caller. -/
def TaskPc.sent {α ε : Type} : TaskPc α ε → Bool
  | .done => true
  | .release => true
  | .exited => true
  | _ => false

/-- The items a task has passed to the caller, as long as the context is live. -/
def delivered {α ε : Type} (loadFunc : itemLoadFunc α ε) (t : String × TaskPc α ε) :
    Multiset α :=
  match t.2 with
  | .done => {(loadFunc false t.1).item}
  | .release => {(loadFunc false t.1).item}
  | .exited => {(loadFunc false t.1).item}
  | _ => 0

/-- What holds in every state of a call as long as the context is live and the caller
has received no error: the dispatcher has not left the loop early, `wg` counts exactly
the tasks that have not run `wg.Done()`, and `items` holds the items of the tasks that
have delivered, each fetched without error. -/
structure Good {α ε : Type} (ids : List String) (loadFunc : itemLoadFunc α ε)
    (s : State α ε) : Prop where
  live : s.cancelled = false
  caller : s.cons = .receive ∨ (s.cons = .returned (some s.items) none ∧ s.closed = true)
  sent : ∀ t, t ∈ s.tasks → ∀ r, t.2 = .send r → r = loadFunc false t.1
  order : s.tasks.map Prod.fst = ids.take s.tasks.length
  pos : s.disp.position s.tasks.length ids.length
  count : s.wg = tasksCounted s.tasks + s.disp.counted
  closing : s.disp = .close ∨ s.disp = .exited → s.wg = 0
  shut : s.closed = true ↔ s.disp = .exited
  got : (s.items : Multiset α) = (s.tasks.map (delivered loadFunc)).sum
  clean : ∀ t, t ∈ s.tasks → t.2.sent = true → (loadFunc false t.1).err = none

/-- What holds in every state of a call as long as the caller has received no error and
the dispatcher has not left the loop on `ctx.Done()`, whether the context is done or
not: `wg` counts exactly the tasks that have not run `wg.Done()`, the results waiting
to be sent are answers of the load function, and every task that has delivered was
answered without error. -/
structure Core {α ε : Type} (ids : List String) (loadFunc : itemLoadFunc α ε)
    (s : State α ε) : Prop where
  caller : s.cons = .receive ∨ ((∃ xs, s.cons = .returned (some xs) none) ∧ s.closed = true)
  sent : ∀ t, t ∈ s.tasks → ∀ r, t.2 = .send r → ∃ c, r = loadFunc c t.1
  order : s.tasks.map Prod.fst = ids.take s.tasks.length
  pos : s.disp.position s.tasks.length ids.length
  count : s.wg = tasksCounted s.tasks + s.disp.counted
  closing : s.disp = .close ∨ s.disp = .exited → s.wg = 0
  shut : s.closed = true ↔ s.disp = .exited
  clean : ∀ t, t ∈ s.tasks → t.2.sent = true → ∃ c, (loadFunc c t.1).err = none

/-- An upper bound on the number of steps the dispatcher can still make on its own
and through the tasks it will start, for `total` ids. -/
def DispatcherPc.stepsLeft (total : Nat) : DispatcherPc → Nat
  | .loop i => 8 * (total - i) + 5
  | .select i => 8 * (total - i) + 4
  | .spawn i => 8 * (total - i) + 3
  | .wait => 2
  | .close => 1
  | .exited => 0

/-- The number of steps a task can still make. -/
def TaskPc.stepsLeft {α ε : Type} : TaskPc α ε → Nat
  | .call => 5
  | .fetching => 4
  | .send _ => 3
  | .done => 2
  | .release => 1
  | .exited => 0

/-- An upper bound on the number of steps the caller can still make on its own. -/
def ConsumerPc.stepsLeft {α ε : Type} : ConsumerPc α ε → Nat
  | .receive => 2
  | .cancel _ => 2
  | .drain _ => 1
  | .returned _ _ => 0

/-- The steps the started tasks can still make. -/
def tasksStepsLeft {α ε : Type} (tasks : List (String × TaskPc α ε)) : Nat :=
  (tasks.map (fun t => t.2.stepsLeft)).sum

/-- An upper bound on the number of steps that can still be made from a state; the
last summand is for the cancellation of the caller's context. -/
def stepsLeft {α ε : Type} (ids : List String) (s : State α ε) : Nat :=
  s.disp.stepsLeft ids.length + tasksStepsLeft s.tasks + s.cons.stepsLeft +
    (if s.cancelled then 0 else 1)

/-- A state after the dispatcher has returned from the `select` on `ctx.Done()`: it
waits on a `wg` that counts more than the tasks still to run `wg.Done()`, and
`resultsCh` is open with the caller still inside `loadDetails`. -/
structure Lost {α ε : Type} (s : State α ε) : Prop where
  waiting : s.disp = .wait
  excess : tasksCounted s.tasks < s.wg
  unshut : s.closed = false
  inside : s.hasReturned = false

/-- The caller has received the error `e`: it is about to cancel, or drains, or has
returned no items and `e`. -/
def FailedWith {α ε : Type} (e : ε) (s : State α ε) : Prop :=
  s.cons = .cancel e ∨ s.cons = .drain e ∨ s.cons = .returned none (some e)

/-! ## Concrete inputs -/

/-- A load function that answers by invocation count, whatever cursor it is given: its
state is the number of invocations so far, page `k` holds the integer `k`, and the
third page is the last. -/
def countedPages : listLoadFunc Unit Nat String :=
  fun _ _ s => (⟨.slice [.int s], if s = 2 then "" else "more", none⟩, s + 1)

/-- A load function like `countedPages` whose third invocation fails. -/
def failingPages : listLoadFunc Unit Nat String :=
  fun _ _ s => (⟨.slice [.int s], "more", if s = 2 then some "boom" else none⟩, s + 1)

/-- A listing of two pages served by a load function that is a pure function of its
cursor: the empty cursor gives the first page and the cursor `"next"`, and the cursor
`"next"` gives the second page and the empty cursor. -/
def twoPages : listLoadFunc Unit Unit String :=
  fun _ cursor _ =>
    if cursor = "" then (⟨.slice [.str "p1"], "next", none⟩, ())
    else if cursor = "next" then (⟨.slice [.str "p2"], "", none⟩, ())
    else (⟨.nil, "", some "unknown cursor"⟩, ())

/-- The identity extraction on string values. -/
def strId : getIdFunc
  | .str s => some s
  | _ => none

/-- A load function that succeeds on every id with the id as item. -/
def echo : itemLoadFunc String String := fun _ id => ⟨id, none⟩

/-- A load function that fails on the id `"a"` and succeeds on every other id. -/
def failFirst : itemLoadFunc String String :=
  fun _ id => if id = "a" then ⟨"", some "boom"⟩ else ⟨id, none⟩

/-- Eleven ids, one more than `maxConcurrency`. -/
def elevenIds : List String := ["a", "b", "c", "d", "e", "f", "g", "h", "i", "j", "k"]

/-- A run on two ids in which the second task delivers before the first and the caller
returns while both tasks still hold their slot. -/
def twoRun : List Label :=
  [.next, .acquire, .go, .next, .acquire, .go, .leave, .call 1, .ret 1, .send 1,
    .call 0, .ret 0, .send 0, .done 0, .done 1, .waited, .close, .finish]

/-- The state `twoRun` ends in. -/
def twoDone : State String String :=
  ⟨.exited, 0, 2, false, true, [("a", .release), ("b", .release)], ["b", "a"],
    .returned (some ["b", "a"]) none⟩

/-- A run on eleven ids that starts ten tasks and has all of them invoke `loadFunc`,
while the dispatcher waits in the `select` for the eleventh id. -/
def busyRun : List Label :=
  (List.range 10).flatMap (fun _ => [.next, .acquire, .go]) ++ [.next] ++
    (List.range 10).map Label.call

/-- The state `busyRun` ends in. -/
def busyState : State String String :=
  ⟨.select 10, 11, 10, false, false,
    ["a", "b", "c", "d", "e", "f", "g", "h", "i", "j"].map (fun id => (id, .fetching)),
    [], .receive⟩

/-- A run on two ids of which the first fails: the error reaches the caller, which
cancels, before the dispatcher is in the `select` for the second id, and the `select`
takes `ctx.Done()`. -/
def twoAbandonRun : List Label :=
  [.next, .acquire, .go, .call 0, .ret 0, .send 0, .cancel, .next, .abandon, .done 0,
    .release 0]

/-- The state `twoAbandonRun` ends in. -/
def twoStuck : State String String :=
  ⟨.wait, 1, 0, true, false, [("a", .exited)], [], .drain "boom"⟩

/-- A run on eleven ids of which the first fails: ten tasks are started, the dispatcher
waits in the `select` for a free slot, the caller receives the error and cancels, the
`select` takes `ctx.Done()`, and then every started task runs to its end. -/
def elevenAbandonRun : List Label :=
  (List.range 10).flatMap (fun _ => [.next, .acquire, .go]) ++
    [.next, .call 0, .ret 0, .send 0, .cancel, .abandon, .done 0, .release 0] ++
    (List.range' 1 9).flatMap (fun k => [.call k, .ret k, .send k, .done k, .release k])

/-- The state in which a call on the one id `"a"` is left when the context is done and
the `select` takes `ctx.Done()` for that id: no task is started and `wg` is `1`. -/
def ctxStuck : State String String :=
  ⟨.wait, 1, 0, true, false, [], [], .receive⟩

/-- The state `elevenAbandonRun` ends in. -/
def elevenStuck : State String String :=
  ⟨.wait, 1, 0, true, false,
    ["a", "b", "c", "d", "e", "f", "g", "h", "i", "j"].map (fun id => (id, .exited)),
    [], .drain "boom"⟩

/-! ## Theorems: loadList -/

/-- The loop of `loadList` over a load function that answers its next `m + 1`
invocations with slices and no error, with a non-empty cursor on all but the last. -/
theorem loadListLoop_pages {κ σ ε : Type} (ctx : κ) (loadFunc : listLoadFunc κ σ ε)
    (cursor : String) (st : Nat → σ) (pages : Nat → List Value) (cur : Nat → String) :
    ∀ (m j fuel : Nat) (result : List Value) (calls : List String),
      (∀ k, j ≤ k → k ≤ j + m →
        loadFunc ctx cursor (st k) = (⟨.slice (pages k), cur k, none⟩, st (k + 1))) →
      (∀ k, j ≤ k → k < j + m → cur k ≠ "") →
      cur (j + m) = "" →
      m + 1 ≤ fuel →
      loadListLoop ctx loadFunc cursor fuel (st j) result calls =
        ⟨.returned (some (.slice (result ++ ((List.range' j (m + 1)).map pages).flatten))) none,
          calls ++ List.replicate (m + 1) cursor, st (j + m + 1)⟩ := by
  intro m
  induction m with
  | zero =>
    intro j fuel result calls hresp _ hlast hfuel
    obtain ⟨f, rfl⟩ : ∃ f, fuel = f + 1 := ⟨fuel - 1, by omega⟩
    have h := hresp j (le_refl j) (by omega)
    have hl : cur j = "" := by simpa using hlast
    simp [loadListLoop, h, hl]
  | succ m ih =>
    intro j fuel result calls hresp hcur hlast hfuel
    obtain ⟨f, rfl⟩ : ∃ f, fuel = f + 1 := ⟨fuel - 1, by omega⟩
    have h := hresp j (le_refl j) (by omega)
    have hc : cur j ≠ "" := hcur j (le_refl j) (by omega)
    have hrec := ih (j + 1) f (result ++ pages j) (calls ++ [cursor])
      (fun k hk hk' => hresp k (by omega) (by omega))
      (fun k hk hk' => hcur k (by omega) (by omega))
      (by rw [← hlast]; congr 1; omega) (by omega)
    rw [loadListLoop]
    simp only [h, hc, if_false]
    rw [hrec]
    have e1 : j + 1 + m + 1 = j + (m + 1) + 1 := by omega
    rw [e1, List.range'_succ j (m + 1)]
    simp [List.replicate_succ, List.append_assoc]

/-- The loop of `loadList` over a load function that answers `m` invocations with
slices, no error and a non-empty cursor, and the one after them with an error. -/
theorem loadListLoop_error {κ σ ε : Type} (ctx : κ) (loadFunc : listLoadFunc κ σ ε)
    (cursor : String) (st : Nat → σ) (pages : Nat → List Value) (cur : Nat → String)
    (bad : PageResult ε) (e : ε) (s' : σ) :
    ∀ (m j fuel : Nat) (result : List Value) (calls : List String),
      (∀ k, j ≤ k → k < j + m →
        loadFunc ctx cursor (st k) = (⟨.slice (pages k), cur k, none⟩, st (k + 1))) →
      (∀ k, j ≤ k → k < j + m → cur k ≠ "") →
      loadFunc ctx cursor (st (j + m)) = (bad, s') →
      bad.err = some e →
      m + 1 ≤ fuel →
      loadListLoop ctx loadFunc cursor fuel (st j) result calls =
        ⟨.returned none (some e), calls ++ List.replicate (m + 1) cursor, s'⟩ := by
  intro m
  induction m with
  | zero =>
    intro j fuel result calls _ _ hbad he hfuel
    obtain ⟨f, rfl⟩ : ∃ f, fuel = f + 1 := ⟨fuel - 1, by omega⟩
    have hb : loadFunc ctx cursor (st j) = (bad, s') := by simpa using hbad
    simp [loadListLoop, hb, he]
  | succ m ih =>
    intro j fuel result calls hresp hcur hbad he hfuel
    obtain ⟨f, rfl⟩ : ∃ f, fuel = f + 1 := ⟨fuel - 1, by omega⟩
    have h := hresp j (le_refl j) (by omega)
    have hc : cur j ≠ "" := hcur j (le_refl j) (by omega)
    have hrec := ih (j + 1) f (result ++ pages j) (calls ++ [cursor])
      (fun k hk hk' => hresp k (by omega) (by omega))
      (fun k hk hk' => hcur k (by omega) (by omega))
      (by rw [← hbad]; congr 2; omega) he (by omega)
    rw [loadListLoop]
    simp only [h, hc, if_false]
    rw [hrec]
    simp [List.replicate_succ, List.append_assoc]

/-- With the fuel used up the loop is still running, whatever the load function is,
and each of its invocations so far was made with the cursor of line 18. -/
theorem loadListLoop_calls {κ σ ε : Type} (ctx : κ) (loadFunc : listLoadFunc κ σ ε)
    (cursor : String) :
    ∀ (fuel : Nat) (s : σ) (result : List Value) (calls : List String),
      ∃ n, n ≤ fuel ∧
        (loadListLoop ctx loadFunc cursor fuel s result calls).calls =
          calls ++ List.replicate n cursor := by
  intro fuel
  induction fuel with
  | zero => intro s result calls; exact ⟨0, le_refl 0, by simp [loadListLoop]⟩
  | succ f ih =>
    intro s result calls
    rw [loadListLoop]
    cases herr : (loadFunc ctx cursor s).1.err with
    | some err => exact ⟨1, by omega, by simp⟩
    | none =>
      cases hitems : (loadFunc ctx cursor s).1.items with
      | slice xs =>
        by_cases hc : (loadFunc ctx cursor s).1.cursor = ""
        · exact ⟨1, by omega, by simp [hc]⟩
        · obtain ⟨n, hn, h⟩ := ih (loadFunc ctx cursor s).2 (result ++ xs) (calls ++ [cursor])
          refine ⟨n + 1, by omega, ?_⟩
          simp only [hc, if_false]
          rw [h]
          simp [List.replicate_succ, List.append_assoc]
      | _ => exact ⟨1, by omega, by simp⟩

/-- C1. Pagination completeness of `loadList`.  Let the invocations `1..n` of the load
function (invocation `k + 1` is made in the state `st k`, with the cursor of line 18)
return the pages `pages 0 .. pages (n - 1)` with no error, the cursors of all but the
last being non-empty and the last being empty.  Then with fuel for `n` iterations
`loadList` returns the concatenation of the pages in order with a nil error, after
exactly `n` invocations. -/
theorem loadList_pagination_complete {κ σ ε : Type} (ctx : κ) (loadFunc : listLoadFunc κ σ ε)
    (st : Nat → σ) (pages : Nat → List Value) (cur : Nat → String) (n fuel : Nat)
    (hn : 1 ≤ n)
    (hresp : ∀ k, k < n →
      loadFunc ctx "" (st k) = (⟨.slice (pages k), cur k, none⟩, st (k + 1)))
    (hcur : ∀ k, k + 1 < n → cur k ≠ "")
    (hlast : cur (n - 1) = "")
    (hfuel : n ≤ fuel) :
    loadList ctx loadFunc fuel (st 0) =
        ⟨.returned (some (.slice ((List.range n).map pages).flatten)) none,
          List.replicate n "", st n⟩ ∧
      (loadList ctx loadFunc fuel (st 0)).calls.length = n := by
  obtain ⟨m, rfl⟩ : ∃ m, n = m + 1 := ⟨n - 1, by omega⟩
  have h := loadListLoop_pages ctx loadFunc "" st pages cur m 0 fuel [] []
    (fun k _ hk => hresp k (by omega)) (fun k _ hk => hcur k (by omega))
    (by simpa using hlast) hfuel
  have e : loadList ctx loadFunc fuel (st 0) =
      ⟨.returned (some (.slice ((List.range (m + 1)).map pages).flatten)) none,
        List.replicate (m + 1) "", st (m + 1)⟩ := by
    rw [loadList, h, List.range_eq_range']
    simp
  exact ⟨e, by rw [e]; simp⟩

/-- C1 at a load function that serves three pages by invocation count. -/
theorem loadList_pagination_complete_witness :
    loadList () countedPages 5 0 =
        ⟨.returned (some (.slice [.int 0, .int 1, .int 2])) none, ["", "", ""], 3⟩ ∧
      (loadList () countedPages 5 0).calls.length = 3 :=
  loadList_pagination_complete () countedPages id (fun k => [.int k])
    (fun k => if k = 2 then "" else "more") 3 5 (by decide)
    (fun _ _ => rfl) (fun k hk => by have : k ≠ 2 := by omega
                                     simp [this]) rfl (by decide)

/-- C3. Pagination short-circuit of `loadList`.  Let the invocations `1..k` of the load
function return pages with no error and a non-empty cursor, and let invocation `k + 1`
be the first to return an error `e`.  Then with fuel for `k + 1` iterations `loadList`
returns the nil result together with `e` itself, and the load function has been invoked
`k + 1` times and is left in the state in which the failing invocation left it. -/
theorem loadList_short_circuit {κ σ ε : Type} (ctx : κ) (loadFunc : listLoadFunc κ σ ε)
    (st : Nat → σ) (pages : Nat → List Value) (cur : Nat → String) (k fuel : Nat)
    (bad : PageResult ε) (e : ε) (s' : σ)
    (hok : ∀ j, j < k →
      loadFunc ctx "" (st j) = (⟨.slice (pages j), cur j, none⟩, st (j + 1)))
    (hcur : ∀ j, j < k → cur j ≠ "")
    (hbad : loadFunc ctx "" (st k) = (bad, s'))
    (he : bad.err = some e)
    (hfuel : k + 1 ≤ fuel) :
    loadList ctx loadFunc fuel (st 0) =
        ⟨.returned none (some e), List.replicate (k + 1) "", s'⟩ ∧
      (loadList ctx loadFunc fuel (st 0)).calls.length = k + 1 := by
  have h := loadListLoop_error ctx loadFunc "" st pages cur bad e s' k 0 fuel [] []
    (fun j _ hj => hok j (by omega)) (fun j _ hj => hcur j (by omega))
    (by simpa using hbad) he hfuel
  have e' : loadList ctx loadFunc fuel (st 0) =
      ⟨.returned none (some e), List.replicate (k + 1) "", s'⟩ := by
    rw [loadList, h]; simp
  exact ⟨e', by rw [e']; simp⟩

/-- C3 at a load function whose third invocation is the first to fail. -/
theorem loadList_short_circuit_witness :
    loadList () failingPages 7 0 = ⟨.returned none (some "boom"), ["", "", ""], 3⟩ ∧
      (loadList () failingPages 7 0).calls.length = 3 :=
  loadList_short_circuit () failingPages id (fun k => [.int k]) (fun _ => "more") 2 7
    ⟨.slice [.int 2], "more", some "boom"⟩ "boom" 3
    (fun j hj => by have : j ≠ 2 := by omega
                    simp [failingPages, this])
    (fun _ _ => by simp) rfl rfl (by decide)

/-- C2, the code at a two-page listing served by a pure function of the cursor.  The
second page is reachable only through the cursor `"next"` returned with the first.
Whatever the fuel, every invocation `loadList` makes receives the empty cursor, so the
first page is fetched again and again and the function never returns. -/
theorem loadList_cursor_not_threaded (fuel : Nat) :
    loadList () twoPages fuel () = ⟨.running, List.replicate fuel "", ()⟩ := by
  have h : ∀ (fuel : Nat) (result : List Value) (calls : List String),
      loadListLoop () twoPages "" fuel () result calls =
        ⟨.running, calls ++ List.replicate fuel "", ()⟩ := by
    intro fuel
    induction fuel with
    | zero => intro result calls; simp [loadListLoop]
    | succ f ih =>
      intro result calls
      rw [loadListLoop]
      simp [twoPages, ih, List.replicate_succ]
  rw [loadList, h]; simp

/-! ## Theorems: getIds -/

theorem mem_firstOccurrences (s : String) :
    ∀ l : List String, s ∈ firstOccurrences l ↔ s ∈ l := by
  intro l
  induction l with
  | nil => simp [firstOccurrences]
  | cons x xs ih =>
    simp only [firstOccurrences, List.mem_cons, List.mem_filter, ih, decide_eq_true_eq]
    by_cases h : s = x <;> simp [h]

theorem nodup_firstOccurrences : ∀ l : List String, (firstOccurrences l).Nodup := by
  intro l
  induction l with
  | nil => simp [firstOccurrences]
  | cons x xs ih =>
    simp only [firstOccurrences, List.nodup_cons]
    exact ⟨by simp [List.mem_filter], ih.filter _⟩

theorem indexOf_cons_of_ne (x a : String) (xs : List String) (h : a ≠ x) :
    (x :: xs).indexOf a = xs.indexOf a + 1 := by
  rw [List.indexOf_cons]
  have : (x == a) = false := by simpa using (fun e => h e.symm)
  simp [this]

theorem pairwise_firstOccurrences :
    ∀ l : List String,
      (firstOccurrences l).Pairwise (fun a b => l.indexOf a < l.indexOf b) := by
  intro l
  induction l with
  | nil => simp [firstOccurrences]
  | cons x xs ih =>
    simp only [firstOccurrences, List.pairwise_cons]
    constructor
    · intro b hb
      have hne : b ≠ x := by simpa using (List.mem_filter.mp hb).2
      rw [indexOf_cons_of_ne x b xs hne]
      simp
    · have hsub := ih.sublist (List.filter_sublist (firstOccurrences xs)
        (p := fun y => decide (y ≠ x)))
      refine hsub.imp_of_mem ?_
      intro a b ha hb hab
      have hane : a ≠ x := by simpa using (List.mem_filter.mp ha).2
      have hbne : b ≠ x := by simpa using (List.mem_filter.mp hb).2
      rw [indexOf_cons_of_ne x a xs hane, indexOf_cons_of_ne x b xs hbne]
      omega

/-- The loop of `getIds` from a `set` that holds exactly the strings of `ids`. -/
theorem getIdsLoop_eq (idFunc : getIdFunc) (f : Value → String) :
    ∀ (items : List Value) (set : GoMap Bool) (ids : List String),
      (∀ v, v ∈ items → idFunc v = some (f v)) →
      (∀ s, set.index s = true ↔ s ∈ ids) →
      getIdsLoop idFunc items set ids =
        some (ids ++ (firstOccurrences (items.map f)).filter (fun y => decide (y ∉ ids))) := by
  intro items
  induction items with
  | nil => intro set ids _ _; simp [getIdsLoop, firstOccurrences]
  | cons item rest ih =>
    intro set ids hf hset
    have ih := fun set ids => ih set ids (fun v hv => hf v (List.mem_cons_of_mem _ hv))
    simp only [getIdsLoop, hf item (List.mem_cons_self _ _), List.map_cons, firstOccurrences]
    by_cases hin : f item ∈ ids
    · have hidx : set.index (f item) = true := (hset _).mpr hin
      simp only [hidx, Bool.not_true, Bool.false_eq_true, if_false]
      rw [ih set ids hset]
      congr 2
      rw [List.filter_cons_of_neg (by simpa using hin), List.filter_filter]
      apply List.filter_congr
      intro y _
      by_cases hy : y ∈ ids
      · simp [hy]
      · have : y ≠ f item := fun e => hy (e ▸ hin)
        simp [hy, this]
    · have hidx : set.index (f item) = false := by
        cases h : set.index (f item) with
        | false => rfl
        | true => exact absurd ((hset _).mp h) hin
      simp only [hidx, Bool.not_false, if_true]
      have hset' : ∀ s, (set.set (f item) true).index s = true ↔ s ∈ ids ++ [f item] := by
        intro s
        have := hset s
        by_cases hs : s = f item
        · simp [GoMap.index, GoMap.set, hs]
        · simp only [GoMap.index, GoMap.set, hs, if_false, List.mem_append,
            List.mem_singleton, or_false]
          exact this
      rw [ih _ _ hset']
      congr 1
      rw [List.filter_cons_of_pos (by simpa using hin), List.filter_filter]
      simp only [List.append_assoc, List.singleton_append]
      congr 2
      apply List.filter_congr
      intro y _
      by_cases hy : y ∈ ids <;> by_cases hy' : y = f item <;> simp [hy, hy']

/-- The function `getIds` on a `[]interface{}` and a total extraction function. -/
theorem getIds_slice_eq (idFunc : getIdFunc) (f : Value → String) (items : List Value)
    (hf : ∀ v, v ∈ items → idFunc v = some (f v)) :
    getIds (.slice items) idFunc = some (firstOccurrences (items.map f)) := by
  rw [getIds, getIdsLoop_eq idFunc f items GoMap.empty [] hf
    (by intro s; simp [GoMap.index, GoMap.empty])]
  simp

/-- C4. Dedup order of `getIds`.  On a `[]interface{}` and a total extraction function
`f`, `getIds` returns the `f`-values of the items with every repeat after the first
occurrence removed.  That list has no duplicates, holds exactly the strings that occur
among the `f`-values, and lists them by increasing position of first occurrence.  On
`[A, B, A, C, B]` with the identity it is `[A, B, C]`. -/
theorem getIds_dedup_order (items : List Value) (f : Value → String) :
    getIds (.slice items) (fun v => some (f v)) = some (firstOccurrences (items.map f)) ∧
      (firstOccurrences (items.map f)).Nodup ∧
      (∀ s, s ∈ firstOccurrences (items.map f) ↔ s ∈ items.map f) ∧
      (firstOccurrences (items.map f)).Pairwise
        (fun a b => (items.map f).indexOf a < (items.map f).indexOf b) ∧
      getIds (.slice [.str "A", .str "B", .str "A", .str "C", .str "B"]) strId =
        some ["A", "B", "C"] :=
  ⟨getIds_slice_eq _ f items (fun _ _ => rfl), nodup_firstOccurrences _, fun s => mem_firstOccurrences s _,
    pairwise_firstOccurrences _, by decide⟩

/-- C10, the code on every slice of instruments.  The assertion `items.([]interface{})`
of `getIds` is applied to a value of dynamic type `[]*robinhood.Instrument`, so it fails
and `getInstrumentsMarketIds` panics, on the empty slice as on every other.  On
instruments held in a `[]interface{}`, none of them nil, `getIds` with the same accessor
returns the distinct `Market` values in first-seen order. -/
theorem getInstrumentsMarketIds_panics (instruments : List (Option Instrument)) :
    getInstrumentsMarketIds instruments = none ∧
      getInstrumentsMarketIds [] = none ∧
      ∀ ps : List Instrument,
        getIds (.slice (ps.map (fun p => Value.instrument (some p)))) instrumentMarket =
          some (firstOccurrences (ps.map Instrument.Market)) := by
  refine ⟨rfl, rfl, fun ps => ?_⟩
  have h := getIds_slice_eq instrumentMarket
    (fun v => (instrumentMarket v).getD "") (ps.map (fun p => Value.instrument (some p)))
    (by
      intro v hv
      obtain ⟨p, _, rfl⟩ := List.mem_map.mp hv
      rfl)
  rw [h, List.map_map]
  rfl

/-! ## Theorems: getInstrumentByURL and getMarketByURL -/

theorem getInstrumentByURLLoop_eq :
    ∀ (instruments : List (Option Instrument)) (m : GoMap (Option Instrument)),
      (∀ p, p ∈ instruments → p ≠ none) →
      ∃ m', getInstrumentByURLLoop instruments m = some m' ∧
        ∀ k, m' k =
          ((instruments.filter
            (fun p => decide (p.map Instrument.URL = some k))).getLast?).or (m k) := by
  intro instruments
  induction instruments with
  | nil => intro m _; exact ⟨m, rfl, fun k => by simp⟩
  | cons p ps ih =>
    intro m hp
    cases p with
    | none => exact absurd rfl (hp none (List.mem_cons_self _ _))
    | some x =>
      obtain ⟨m', h1, h2⟩ := ih (m.set x.URL (some x))
        (fun q hq => hp q (List.mem_cons_of_mem _ hq))
      refine ⟨m', by rw [getInstrumentByURLLoop, h1], fun k => ?_⟩
      rw [h2 k]
      by_cases hx : x.URL = k
      · have hk : k = x.URL := hx.symm
        rw [List.filter_cons_of_pos (by simpa using hx)]
        cases h : (ps.filter (fun p => decide (p.map Instrument.URL = some k))) with
        | nil => simp [GoMap.set, hk]
        | cons y ys =>
          rw [List.getLast?_cons_cons]
          cases hl : (y :: ys).getLast? with
          | none => simp at hl
          | some z => rfl
      · have hk : ¬ k = x.URL := fun e => hx e.symm
        rw [List.filter_cons_of_neg (by simpa using hx)]
        simp [GoMap.set, hk]

theorem getMarketByURLLoop_eq :
    ∀ (markets : List (Option Market)) (m : GoMap (Option Market)),
      (∀ p, p ∈ markets → p ≠ none) →
      ∃ m', getMarketByURLLoop markets m = some m' ∧
        ∀ k, m' k =
          ((markets.filter
            (fun p => decide (p.map Market.URL = some k))).getLast?).or (m k) := by
  intro markets
  induction markets with
  | nil => intro m _; exact ⟨m, rfl, fun k => by simp⟩
  | cons p ps ih =>
    intro m hp
    cases p with
    | none => exact absurd rfl (hp none (List.mem_cons_self _ _))
    | some x =>
      obtain ⟨m', h1, h2⟩ := ih (m.set x.URL (some x))
        (fun q hq => hp q (List.mem_cons_of_mem _ hq))
      refine ⟨m', by rw [getMarketByURLLoop, h1], fun k => ?_⟩
      rw [h2 k]
      by_cases hx : x.URL = k
      · have hk : k = x.URL := hx.symm
        rw [List.filter_cons_of_pos (by simpa using hx)]
        cases h : (ps.filter (fun p => decide (p.map Market.URL = some k))) with
        | nil => simp [GoMap.set, hk]
        | cons y ys =>
          rw [List.getLast?_cons_cons]
          cases hl : (y :: ys).getLast? with
          | none => simp at hl
          | some z => rfl
      · have hk : ¬ k = x.URL := fun e => hx e.symm
        rw [List.filter_cons_of_neg (by simpa using hx)]
        simp [GoMap.set, hk]

/-- The loop of `getInstrumentByURL` panics on a slice that holds a nil pointer. -/
theorem getInstrumentByURLLoop_nil :
    ∀ (instruments : List (Option Instrument)) (m : GoMap (Option Instrument)),
      none ∈ instruments → getInstrumentByURLLoop instruments m = none := by
  intro instruments
  induction instruments with
  | nil => intro m h; simp at h
  | cons p ps ih =>
    intro m h
    cases p with
    | none => rfl
    | some x =>
      rw [getInstrumentByURLLoop]
      exact ih _ (by simpa using h)

/-- The loop of `getMarketByURL` panics on a slice that holds a nil pointer. -/
theorem getMarketByURLLoop_nil :
    ∀ (markets : List (Option Market)) (m : GoMap (Option Market)),
      none ∈ markets → getMarketByURLLoop markets m = none := by
  intro markets
  induction markets with
  | nil => intro m h; simp at h
  | cons p ps ih =>
    intro m h
    cases p with
    | none => rfl
    | some x =>
      rw [getMarketByURLLoop]
      exact ih _ (by simpa using h)

theorem isSome_getLast?_filter_iff {β γ : Type} [DecidableEq γ] (key : β → γ) (k : γ)
    (l : List β) :
    ((l.filter (fun i => decide (key i = k))).getLast?).isSome ↔ k ∈ l.map key := by
  rw [Option.isSome_iff_ne_none, Ne, List.getLast?_eq_none_iff, List.filter_eq_nil_iff]
  simp only [decide_eq_true_eq, not_forall, not_not, List.mem_map]
  constructor
  · rintro ⟨x, hx, h⟩
    exact ⟨x, hx, h⟩
  · rintro ⟨x, hx, h⟩
    exact ⟨x, hx, h⟩

/-- C5, as stated, at a slice that holds a nil pointer.  Reading `URL` through the nil
pointer panics (lines 130 and 138), so no map is returned, whether the nil pointer is
the only element or comes after others; the same holds of every slice that holds a
nil pointer. -/
theorem byURL_nil_element_panics :
    getInstrumentByURL [none] = none ∧
      getMarketByURL [none] = none ∧
      getInstrumentByURL [some ⟨"u", "m", []⟩, none] = none ∧
      getMarketByURL [some ⟨"u", []⟩, none] = none ∧
      (∀ instruments : List (Option Instrument),
        none ∈ instruments → getInstrumentByURL instruments = none) ∧
      (∀ markets : List (Option Market), none ∈ markets → getMarketByURL markets = none) :=
  ⟨rfl, rfl, rfl, rfl, fun l h => getInstrumentByURLLoop_nil l _ h,
    fun l h => getMarketByURLLoop_nil l _ h⟩

/-- C5, amended.  Last-write-wins indexing of `getInstrumentByURL` and `getMarketByURL`.
For every input slice that holds no nil pointer, a map is returned, its keys are exactly
the `URL` values that occur in the input, each key maps to the last pointer of the input
whose record carries that `URL`, and of two items that share a `URL` the later one is
the one stored. -/
theorem byURL_last_write_wins (instruments : List (Option Instrument))
    (markets : List (Option Market))
    (hi : ∀ p, p ∈ instruments → p ≠ none) (hm : ∀ p, p ∈ markets → p ≠ none) :
    (∃ m, getInstrumentByURL instruments = some m ∧
      (∀ k, (m k).isSome ↔ ∃ i, some i ∈ instruments ∧ i.URL = k) ∧
      (∀ k, m k =
        (instruments.filter (fun p => decide (p.map Instrument.URL = some k))).getLast?)) ∧
      (∃ m, getMarketByURL markets = some m ∧
        (∀ k, (m k).isSome ↔ ∃ i, some i ∈ markets ∧ i.URL = k) ∧
        (∀ k, m k =
          (markets.filter (fun p => decide (p.map Market.URL = some k))).getLast?)) ∧
      (∀ a b : Instrument, a.URL = b.URL →
        ∃ m, getInstrumentByURL [some a, some b] = some m ∧ m a.URL = some (some b)) ∧
      (∀ a b : Market, a.URL = b.URL →
        ∃ m, getMarketByURL [some a, some b] = some m ∧ m a.URL = some (some b)) := by
  refine ⟨?_, ?_, ?_, ?_⟩
  · obtain ⟨m, h1, h2⟩ := getInstrumentByURLLoop_eq instruments GoMap.empty hi
    have h3 : ∀ k, m k =
        (instruments.filter (fun p => decide (p.map Instrument.URL = some k))).getLast? := by
      intro k
      rw [h2 k]
      simp [GoMap.empty]
    refine ⟨m, h1, fun k => ?_, h3⟩
    rw [h3 k, isSome_getLast?_filter_iff (fun p : Option Instrument => p.map Instrument.URL)]
    simp only [List.mem_map]
    constructor
    · rintro ⟨p, hp, hk⟩
      cases p with
      | none => simp at hk
      | some i => exact ⟨i, hp, by simpa using hk⟩
    · rintro ⟨i, hp, hk⟩
      exact ⟨some i, hp, by simp [hk]⟩
  · obtain ⟨m, h1, h2⟩ := getMarketByURLLoop_eq markets GoMap.empty hm
    have h3 : ∀ k, m k =
        (markets.filter (fun p => decide (p.map Market.URL = some k))).getLast? := by
      intro k
      rw [h2 k]
      simp [GoMap.empty]
    refine ⟨m, h1, fun k => ?_, h3⟩
    rw [h3 k, isSome_getLast?_filter_iff (fun p : Option Market => p.map Market.URL)]
    simp only [List.mem_map]
    constructor
    · rintro ⟨p, hp, hk⟩
      cases p with
      | none => simp at hk
      | some i => exact ⟨i, hp, by simpa using hk⟩
    · rintro ⟨i, hp, hk⟩
      exact ⟨some i, hp, by simp [hk]⟩
  · intro a b hab
    obtain ⟨m, h1, h2⟩ := getInstrumentByURLLoop_eq [some a, some b] GoMap.empty
      (by intro p hp; simp at hp; rcases hp with rfl | rfl <;> simp)
    exact ⟨m, h1, by rw [h2]; simp [hab]⟩
  · intro a b hab
    obtain ⟨m, h1, h2⟩ := getMarketByURLLoop_eq [some a, some b] GoMap.empty
      (by intro p hp; simp at hp; rcases hp with rfl | rfl <;> simp)
    exact ⟨m, h1, by rw [h2]; simp [hab]⟩

/-- C5, amended, at two instruments and two markets that share their `URL`. -/
theorem byURL_last_write_wins_witness :
    (∃ m, getInstrumentByURL [some ⟨"x", "m1", []⟩, some ⟨"x", "m2", []⟩] = some m ∧
      m "x" = some (some ⟨"x", "m2", []⟩)) ∧
      (∃ m, getMarketByURL [some ⟨"x", [("v", "1")]⟩, some ⟨"x", [("v", "2")]⟩] = some m ∧
        m "x" = some (some ⟨"x", [("v", "2")]⟩)) :=
  have h := byURL_last_write_wins
    [some ⟨"x", "m1", []⟩, some ⟨"x", "m2", []⟩]
    [some ⟨"x", [("v", "1")]⟩, some ⟨"x", [("v", "2")]⟩]
    (by decide) (by decide)
  ⟨h.2.2.1 ⟨"x", "m1", []⟩ ⟨"x", "m2", []⟩ rfl, h.2.2.2 ⟨"x", [("v", "1")]⟩ ⟨"x", [("v", "2")]⟩ rfl⟩

/-! ## Theorems: loadDetails -/

theorem step_sound {α ε : Type} {ids : List String} {loadFunc : itemLoadFunc α ε}
    {l : Label} {s s' : State α ε} (h : step ids loadFunc l s = some s') :
    Step ids loadFunc l s s' := by
  cases l <;> simp only [step] at h <;> (repeat' split at h) <;>
    simp only [Option.some.injEq, reduceCtorEq] at h <;> subst h
  · exact .next _ ‹_› ‹_›
  · exact .leave _ ‹_› ‹_›
  · exact .acquire _ ‹_› ‹_›
  · exact .abandon _ ‹_› ‹_›
  · exact .go _ _ ‹_› ‹_›
  · exact .waited ‹_› ‹_›
  · exact .close ‹_›
  · exact .call _ _ ‹_›
  · exact .ret _ _ ‹_›
  · exact .sendErr _ _ _ _ ‹_› (by simpa using ‹¬ s.closed = true›) ‹_› ‹_›
  · exact .sendOk _ _ _ ‹_› (by simpa using ‹¬ s.closed = true›) ‹_› ‹_›
  · exact .sendDrain _ _ _ _ ‹_› (by simpa using ‹¬ s.closed = true›) ‹_›
  · exact .done _ _ ‹_› ‹_›
  · exact .release _ _ ‹_› ‹_›
  · exact .cancel _ ‹_›
  · exact .finishOk ‹_› ‹_›
  · exact .finishErr _ ‹_› ‹_›
  · exact .ctxDone (by simpa using ‹¬ s.cancelled = true›)

theorem step_complete {α ε : Type} {ids : List String} {loadFunc : itemLoadFunc α ε}
    {l : Label} {s s' : State α ε} (h : Step ids loadFunc l s s') :
    step ids loadFunc l s = some s' := by
  cases h <;> simp_all [step]

theorem sum_map_set {β M : Type} [AddCommMonoid M] (w : β → M) :
    ∀ (l : List β) (k : Nat) (old new : β), l[k]? = some old →
      ((l.set k new).map w).sum + w old = (l.map w).sum + w new := by
  intro l
  induction l with
  | nil => intro k old new h; simp at h
  | cons x xs ih =>
    intro k old new h
    cases k with
    | zero =>
      simp only [List.getElem?_cons_zero, Option.some.injEq] at h
      subst h
      simp only [List.set_cons_zero, List.map_cons, List.sum_cons]
      abel
    | succ k =>
      simp only [List.getElem?_cons_succ] at h
      have := ih k old new h
      simp only [List.set_cons_succ, List.map_cons, List.sum_cons]
      rw [add_assoc, this, add_assoc]

theorem slotsHeld_set {α ε : Type} (tasks : List (String × TaskPc α ε)) (k : Nat)
    (id : String) (old new : TaskPc α ε) (ht : tasks[k]? = some (id, old)) :
    slotsHeld (tasks.set k (id, new)) + old.holdsSlot = slotsHeld tasks + new.holdsSlot :=
  sum_map_set (fun t : String × TaskPc α ε => t.2.holdsSlot) tasks k (id, old) (id, new) ht

theorem tasksCounted_set {α ε : Type} (tasks : List (String × TaskPc α ε)) (k : Nat)
    (id : String) (old new : TaskPc α ε) (ht : tasks[k]? = some (id, old)) :
    tasksCounted (tasks.set k (id, new)) + old.counted = tasksCounted tasks + new.counted :=
  sum_map_set (fun t : String × TaskPc α ε => t.2.counted) tasks k (id, old) (id, new) ht

theorem slotsHeld_append {α ε : Type} (tasks : List (String × TaskPc α ε)) (id : String) :
    slotsHeld (tasks ++ [(id, .call)]) = slotsHeld tasks + 1 := by
  simp [slotsHeld, TaskPc.holdsSlot]

theorem tasksCounted_append {α ε : Type} (tasks : List (String × TaskPc α ε)) (id : String) :
    tasksCounted (tasks ++ [(id, .call)]) = tasksCounted tasks + 1 := by
  simp [tasksCounted, TaskPc.counted]

theorem inv_init {α ε : Type} (done : Bool) : Inv (init done : State α ε) :=
  ⟨rfl, Nat.zero_le _, Nat.le_refl _, by simp [init], by simp [init],
    by simp [init, State.hasReturned], by simp [init]⟩

theorem inv_step {α ε : Type} {ids : List String} {loadFunc : itemLoadFunc α ε}
    {l : Label} {s s' : State α ε} (h : Step ids loadFunc l s s') (inv : Inv s) : Inv s' := by
  obtain ⟨h1, h2, h3, h4, h5, h6, h7⟩ := inv
  have hmax : maxConcurrency = 10 := rfl
  cases h with
  | next i hd hi | leave i hd hi | abandon i hd hc | acquire i hd hsem =>
    simp only [hd, DispatcherPc.holdsSlot, DispatcherPc.counted, reduceCtorEq, imp_false,
      or_self, false_imp_iff] at h1 h3 h4 h5
    refine ⟨?_, ?_, ?_, by simp, by simp [h5], h6, h7⟩ <;>
      simp only [DispatcherPc.holdsSlot, DispatcherPc.counted] <;> omega
  | waited hd hwg =>
    simp only [hd, DispatcherPc.holdsSlot, DispatcherPc.counted, reduceCtorEq, imp_false,
      or_self, false_imp_iff] at h1 h3 h4 h5
    refine ⟨?_, ?_, ?_, fun _ => by dsimp only; omega, by simp [h5], h6, h7⟩ <;>
      simp only [DispatcherPc.holdsSlot, DispatcherPc.counted] <;> omega
  | go i id hd hid =>
    simp only [hd, DispatcherPc.holdsSlot, DispatcherPc.counted, reduceCtorEq, imp_false,
      or_self, false_imp_iff] at h1 h3 h4 h5
    have e1 := slotsHeld_append s.tasks id
    have e2 := tasksCounted_append s.tasks id
    refine ⟨?_, ?_, ?_, by simp, by simp [h5], h6, h7⟩ <;>
      simp only [DispatcherPc.holdsSlot, DispatcherPc.counted] <;> omega
  | close hd =>
    simp only [hd, DispatcherPc.holdsSlot, DispatcherPc.counted, reduceCtorEq, imp_false,
      true_or, true_imp_iff] at h1 h3 h4 h5
    refine ⟨?_, ?_, ?_, fun _ => h4, by simp, by simp, h7⟩ <;>
      simp only [DispatcherPc.holdsSlot, DispatcherPc.counted] <;> omega
  | call k id ht =>
    have e1 := slotsHeld_set s.tasks k id _ .fetching ht
    have e2 := tasksCounted_set s.tasks k id _ .fetching ht
    simp only [TaskPc.holdsSlot, TaskPc.counted] at e1 e2
    refine ⟨?_, ?_, ?_, fun hq => ?_, h5, h6, h7⟩
    · dsimp only; omega
    · dsimp only; omega
    · dsimp only; omega
    · have := h4 hq
      dsimp only
      omega
  | ret k id ht =>
    have e1 := slotsHeld_set s.tasks k id _ (.send (loadFunc s.cancelled id)) ht
    have e2 := tasksCounted_set s.tasks k id _ (.send (loadFunc s.cancelled id)) ht
    simp only [TaskPc.holdsSlot, TaskPc.counted] at e1 e2
    refine ⟨?_, ?_, ?_, fun hq => ?_, h5, h6, h7⟩
    · dsimp only; omega
    · dsimp only; omega
    · dsimp only; omega
    · have := h4 hq
      dsimp only
      omega
  | sendErr k id r err ht hcl hc hr =>
    have e1 := slotsHeld_set s.tasks k id _ .done ht
    have e2 := tasksCounted_set s.tasks k id _ .done ht
    simp only [TaskPc.holdsSlot, TaskPc.counted] at e1 e2
    refine ⟨?_, ?_, ?_, fun hq => ?_, h5, by simp [State.hasReturned], by simp⟩
    · dsimp only; omega
    · dsimp only; omega
    · dsimp only; omega
    · have := h4 hq
      dsimp only
      omega
  | sendOk k id r ht hcl hc hr =>
    have e1 := slotsHeld_set s.tasks k id _ .done ht
    have e2 := tasksCounted_set s.tasks k id _ .done ht
    simp only [TaskPc.holdsSlot, TaskPc.counted] at e1 e2
    refine ⟨?_, ?_, ?_, fun hq => ?_, h5, h6, by simp [hc]⟩
    · dsimp only; omega
    · dsimp only; omega
    · dsimp only; omega
    · have := h4 hq
      dsimp only
      omega
  | sendDrain k id r err ht hcl hc =>
    have e1 := slotsHeld_set s.tasks k id _ .done ht
    have e2 := tasksCounted_set s.tasks k id _ .done ht
    simp only [TaskPc.holdsSlot, TaskPc.counted] at e1 e2
    refine ⟨?_, ?_, ?_, fun hq => ?_, h5, h6, h7⟩
    · dsimp only; omega
    · dsimp only; omega
    · dsimp only; omega
    · have := h4 hq
      dsimp only
      omega
  | done k id ht hwg =>
    have e1 := slotsHeld_set s.tasks k id _ .release ht
    have e2 := tasksCounted_set s.tasks k id _ .release ht
    simp only [TaskPc.holdsSlot, TaskPc.counted] at e1 e2
    refine ⟨?_, ?_, ?_, fun hq => ?_, h5, h6, h7⟩
    · dsimp only; omega
    · dsimp only; omega
    · dsimp only; omega
    · have := h4 hq
      dsimp only
      omega
  | release k id ht hsem =>
    have e1 := slotsHeld_set s.tasks k id _ .exited ht
    have e2 := tasksCounted_set s.tasks k id _ .exited ht
    simp only [TaskPc.holdsSlot, TaskPc.counted] at e1 e2
    refine ⟨?_, ?_, ?_, fun hq => ?_, h5, h6, h7⟩
    · dsimp only; omega
    · dsimp only; omega
    · dsimp only; omega
    · have := h4 hq
      dsimp only
      omega
  | cancel err hc => exact ⟨h1, h2, h3, h4, h5, by simp [State.hasReturned], by simp⟩
  | finishOk hcl hc => exact ⟨h1, h2, h3, h4, h5, fun _ => hcl, by simp⟩
  | finishErr err hcl hc => exact ⟨h1, h2, h3, h4, h5, fun _ => hcl, by simp⟩
  | ctxDone hlive => exact ⟨h1, h2, h3, h4, h5, h6, h7⟩

theorem good_init {α ε : Type} (ids : List String) (loadFunc : itemLoadFunc α ε) :
    Good ids loadFunc (init false : State α ε) where
  live := rfl
  caller := Or.inl rfl
  sent := by intro t ht; simp [RobinhoodExport.init] at ht
  order := by simp [RobinhoodExport.init]
  pos := by simp [RobinhoodExport.init, DispatcherPc.position]
  count := rfl
  closing := by simp [RobinhoodExport.init]
  shut := by simp [RobinhoodExport.init]
  got := by simp [RobinhoodExport.init]
  clean := by intro t ht; simp [RobinhoodExport.init] at ht

theorem map_fst_set {β γ : Type} (l : List (β × γ)) (k : Nat) (b : β) (old new : γ)
    (h : l[k]? = some (b, old)) : (l.set k (b, new)).map Prod.fst = l.map Prod.fst := by
  rw [List.map_set]
  apply List.ext_getElem?
  intro j
  rw [List.getElem?_set]
  by_cases hj : k = j
  · subst hj
    have hk : k < (l.map Prod.fst).length := by
      rw [List.length_map]
      exact (List.getElem?_eq_some.mp h).1
    obtain ⟨hk', e⟩ := List.getElem?_eq_some.mp h
    simp [hk', e]
  · simp [hj]

theorem delivered_set {α ε : Type} (loadFunc : itemLoadFunc α ε)
    (tasks : List (String × TaskPc α ε)) (k : Nat) (id : String) (old new : TaskPc α ε)
    (ht : tasks[k]? = some (id, old)) :
    ((tasks.set k (id, new)).map (delivered loadFunc)).sum + delivered loadFunc (id, old) =
      (tasks.map (delivered loadFunc)).sum + delivered loadFunc (id, new) :=
  sum_map_set (delivered loadFunc) tasks k (id, old) (id, new) ht

theorem mem_ids_of_task {α ε : Type} {ids : List String} {tasks : List (String × TaskPc α ε)}
    (h : tasks.map Prod.fst = ids.take tasks.length) {k : Nat} {id : String} {pc : TaskPc α ε}
    (ht : tasks[k]? = some (id, pc)) : id ∈ ids := by
  have h1 : id ∈ tasks.map Prod.fst :=
    List.mem_map.mpr ⟨(id, pc), List.mem_iff_getElem?.mpr ⟨k, ht⟩, rfl⟩
  rw [h] at h1
  exact List.mem_of_mem_take h1

/-- A step that neither cancels the caller's context nor hands an error to the caller
keeps `Good`. -/
theorem good_step {α ε : Type} {ids : List String} {loadFunc : itemLoadFunc α ε}
    {l : Label} {s s' : State α ε} (h : Step ids loadFunc l s s')
    (g : Good ids loadFunc s) (hl : l ≠ .ctxDone) (hne : ∀ err, s'.cons ≠ .cancel err) :
    Good ids loadFunc s' := by
  have hpos := g.pos
  have hwg := g.count
  have hclosing := g.closing
  have hclosed := g.shut
  cases h with
  | next i hd hi =>
    simp only [hd, DispatcherPc.position, DispatcherPc.counted, reduceCtorEq, or_self,
      false_imp_iff, iff_false] at hpos hwg hclosing hclosed
    exact { g with
      pos := ⟨hpos.1, hi⟩
      count := by simp only [DispatcherPc.counted]; omega
      closing := by simp
      shut := by simpa using hclosed }
  | leave i hd hi =>
    simp only [hd, DispatcherPc.position, DispatcherPc.counted, reduceCtorEq, or_self,
      false_imp_iff, iff_false] at hpos hwg hclosing hclosed
    exact { g with
      pos := by simp only [DispatcherPc.position]; omega
      count := by simp only [DispatcherPc.counted]; omega
      closing := by simp
      shut := by simpa using hclosed }
  | acquire i hd hsem =>
    simp only [hd, DispatcherPc.position, DispatcherPc.counted, reduceCtorEq, or_self,
      false_imp_iff, iff_false] at hpos hwg hclosing hclosed
    exact { g with
      pos := hpos
      count := by simp only [DispatcherPc.counted]; omega
      closing := by simp
      shut := by simpa using hclosed }
  | abandon i hd hc => exact absurd hc (by simp [g.live])
  | go i id hd hid =>
    simp only [hd, DispatcherPc.position, DispatcherPc.counted, reduceCtorEq, or_self,
      false_imp_iff, iff_false] at hpos hwg hclosing hclosed
    exact {
      live := g.live
      caller := g.caller
      sent := by
        intro t ht r hr
        rcases List.mem_append.mp ht with ht | ht
        · exact g.sent t ht r hr
        · simp only [List.mem_singleton] at ht
          subst ht
          simp at hr
      order := by
        simp only [List.map_append, List.map_cons, List.map_nil, List.length_append,
          List.length_singleton]
        rw [List.take_succ, g.order, hpos.1, hid]
        rfl
      pos := by simp only [DispatcherPc.position, List.length_append, List.length_singleton]; omega
      count := by
        have e := tasksCounted_append s.tasks id
        simp only [DispatcherPc.counted]; omega
      closing := by simp
      shut := by simpa using hclosed
      clean := by
        intro t ht hs
        rcases List.mem_append.mp ht with ht | ht
        · exact g.clean t ht hs
        · simp only [List.mem_singleton] at ht
          subst ht
          simp [TaskPc.sent] at hs
      got := by
        simp only [List.map_append, List.map_cons, List.map_nil, List.sum_append,
          List.sum_cons, List.sum_nil, delivered, add_zero]
        exact g.got }
  | waited hd hwg0 =>
    simp only [hd, DispatcherPc.position, DispatcherPc.counted, reduceCtorEq, or_self,
      false_imp_iff, iff_false] at hpos hwg hclosing hclosed
    exact { g with
      pos := hpos
      count := by simp only [DispatcherPc.counted]; omega
      closing := fun _ => hwg0
      shut := by simpa using hclosed }
  | close hd =>
    simp only [hd, DispatcherPc.position, DispatcherPc.counted, reduceCtorEq, or_true,
      true_or, true_imp_iff, iff_false] at hpos hwg hclosing hclosed
    exact { g with
      caller := by
        rcases g.caller with h | h
        · exact Or.inl h
        · exact absurd h.2 (by simpa using hclosed)
      pos := hpos
      count := by simp only [DispatcherPc.counted]; omega
      closing := fun _ => hclosing
      shut := by simp }
  | call k id ht =>
    exact {
      live := g.live
      caller := g.caller
      sent := by
        intro t hmem r' hr'
        rcases List.mem_or_eq_of_mem_set hmem with hmem | rfl
        · exact g.sent t hmem r' hr'
        · simpa [g.live] using hr'.symm
      order := by
        rw [List.length_set, map_fst_set s.tasks k id _ _ ht]
        exact g.order
      pos := by
        rw [List.length_set]
        exact hpos
      count := by
        have e := tasksCounted_set s.tasks k id _ .fetching ht
        simp only [TaskPc.counted] at e
        dsimp only
        omega
      closing := hclosing
      shut := hclosed
      clean := by
        intro t hmem hs
        rcases List.mem_or_eq_of_mem_set hmem with hmem | rfl
        · exact g.clean t hmem hs
        · simp [TaskPc.sent] at hs
      got := by
        have e := delivered_set loadFunc s.tasks k id _ .fetching ht
        simp only [delivered, add_zero] at e
        dsimp only
        rw [e]
        exact g.got }
  | ret k id ht =>
    exact {
      live := g.live
      caller := g.caller
      sent := by
        intro t hmem r' hr'
        rcases List.mem_or_eq_of_mem_set hmem with hmem | rfl
        · exact g.sent t hmem r' hr'
        · simpa [g.live] using hr'.symm
      order := by
        rw [List.length_set, map_fst_set s.tasks k id _ _ ht]
        exact g.order
      pos := by
        rw [List.length_set]
        exact hpos
      count := by
        have e := tasksCounted_set s.tasks k id _ (.send (loadFunc s.cancelled id)) ht
        simp only [TaskPc.counted] at e
        dsimp only
        omega
      closing := hclosing
      shut := hclosed
      clean := by
        intro t hmem hs
        rcases List.mem_or_eq_of_mem_set hmem with hmem | rfl
        · exact g.clean t hmem hs
        · simp [TaskPc.sent] at hs
      got := by
        have e := delivered_set loadFunc s.tasks k id _ (.send (loadFunc s.cancelled id)) ht
        simp only [delivered, add_zero] at e
        dsimp only
        rw [e]
        exact g.got }
  | sendErr k id r err ht hcl hc hr =>
    exact absurd rfl (hne err)
  | sendOk k id r ht hcl hc hr =>
    have hr' := g.sent (id, .send r) (List.mem_iff_getElem?.mpr ⟨k, ht⟩) r rfl
    exact {
      live := g.live
      caller := by
        rcases g.caller with h | h
        · exact Or.inl h
        · rw [hc] at h
          exact absurd h.1 (by simp)
      sent := by
        intro t hmem r' hr'
        rcases List.mem_or_eq_of_mem_set hmem with hmem | rfl
        · exact g.sent t hmem r' hr'
        · simpa [g.live] using hr'.symm
      order := by
        rw [List.length_set, map_fst_set s.tasks k id _ _ ht]
        exact g.order
      pos := by
        rw [List.length_set]
        exact hpos
      count := by
        have e := tasksCounted_set s.tasks k id _ .done ht
        simp only [TaskPc.counted] at e
        dsimp only
        omega
      closing := hclosing
      shut := hclosed
      clean := by
        intro t hmem hs
        rcases List.mem_or_eq_of_mem_set hmem with hmem | rfl
        · exact g.clean t hmem hs
        · rw [← hr']
          exact hr
      got := by
        have e := delivered_set loadFunc s.tasks k id _ .done ht
        simp only [delivered, add_zero] at e
        rw [e, ← g.got, hr', ← Multiset.coe_singleton, Multiset.coe_add] }
  | sendDrain k id r err ht hcl hc =>
    rcases g.caller with h | h
    · rw [hc] at h
      simp at h
    · rw [hc] at h
      simp at h
  | done k id ht hwg0 =>
    exact {
      live := g.live
      caller := g.caller
      sent := by
        intro t hmem r' hr'
        rcases List.mem_or_eq_of_mem_set hmem with hmem | rfl
        · exact g.sent t hmem r' hr'
        · simpa [g.live] using hr'.symm
      order := by
        rw [List.length_set, map_fst_set s.tasks k id _ _ ht]
        exact g.order
      pos := by
        rw [List.length_set]
        exact hpos
      count := by
        have e := tasksCounted_set s.tasks k id _ .release ht
        simp only [TaskPc.counted] at e
        dsimp only
        omega
      closing := by
        intro h
        have := hclosing h
        show s.wg - 1 = 0
        omega
      shut := hclosed
      clean := by
        intro t hmem hs
        rcases List.mem_or_eq_of_mem_set hmem with hmem | rfl
        · exact g.clean t hmem hs
        · exact g.clean (id, .done) (List.mem_iff_getElem?.mpr ⟨k, ht⟩) rfl
      got := by
        have e := delivered_set loadFunc s.tasks k id _ .release ht
        simp only [delivered, add_zero] at e
        dsimp only
        rw [add_right_cancel e]
        exact g.got }
  | release k id ht hsem =>
    exact {
      live := g.live
      caller := g.caller
      sent := by
        intro t hmem r' hr'
        rcases List.mem_or_eq_of_mem_set hmem with hmem | rfl
        · exact g.sent t hmem r' hr'
        · simpa [g.live] using hr'.symm
      order := by
        rw [List.length_set, map_fst_set s.tasks k id _ _ ht]
        exact g.order
      pos := by
        rw [List.length_set]
        exact hpos
      count := by
        have e := tasksCounted_set s.tasks k id _ .exited ht
        simp only [TaskPc.counted] at e
        dsimp only
        omega
      closing := hclosing
      shut := hclosed
      clean := by
        intro t hmem hs
        rcases List.mem_or_eq_of_mem_set hmem with hmem | rfl
        · exact g.clean t hmem hs
        · exact g.clean (id, .release) (List.mem_iff_getElem?.mpr ⟨k, ht⟩) rfl
      got := by
        have e := delivered_set loadFunc s.tasks k id _ .exited ht
        simp only [delivered, add_zero] at e
        dsimp only
        rw [add_right_cancel e]
        exact g.got }
  | cancel err hc =>
    rcases g.caller with h | h
    · rw [hc] at h
      simp at h
    · rw [hc] at h
      simp at h
  | finishOk hcl hc => exact { g with caller := Or.inr ⟨rfl, hcl⟩ }
  | finishErr err hcl hc =>
    rcases g.caller with h | h
    · rw [hc] at h
      simp at h
    · rw [hc] at h
      simp at h
  | ctxDone hlive => exact absurd rfl hl

/-- When no fetch fails while the context is live, no step hands an error to the
caller. -/
theorem no_error_step {α ε : Type} {ids : List String} {loadFunc : itemLoadFunc α ε}
    (hok : ∀ id, id ∈ ids → (loadFunc false id).err = none)
    {l : Label} {s s' : State α ε} (h : Step ids loadFunc l s s')
    (g : Good ids loadFunc s) : ∀ err, s'.cons ≠ .cancel err := by
  intro e
  have hcons : ∀ e', s.cons ≠ .cancel e' := by
    intro e' h'
    rcases g.caller with hc | hc
    · rw [h'] at hc; simp at hc
    · rw [h'] at hc; simp at hc
  cases h with
  | sendErr k id r err ht hcl hc hr =>
    have hr' := g.sent (id, .send r) (List.mem_iff_getElem?.mpr ⟨k, ht⟩) r rfl
    have hid := hok id (mem_ids_of_task g.order ht)
    rw [hr'] at hr
    simp [hid] at hr
  | cancel err hc => simp
  | finishOk hcl hc => simp
  | finishErr err hcl hc => simp
  | next i hd hi | leave i hd hi | acquire i hd hsem | abandon i hd hc | waited hd hwg
  | close hd =>
    exact hcons e
  | go i id hd hid => exact hcons e
  | call k id ht | ret k id ht | done k id ht hwg | release k id ht hsem => exact hcons e
  | sendOk k id r ht hcl hc hr | sendDrain k id r err ht hcl hc => exact hcons e
  | ctxDone hlive => exact hcons e

/-- Once the caller has received the error `e`, it stays with `e`: it is about to
cancel, or drains, or has returned no items and `e`. -/
theorem failedWith_step {α ε : Type} {ids : List String} {loadFunc : itemLoadFunc α ε}
    {l : Label} {s s' : State α ε} (h : Step ids loadFunc l s s') (e : ε)
    (hf : FailedWith e s) : FailedWith e s' := by
  unfold FailedWith at hf ⊢
  cases h with
  | sendErr k id r err ht hcl hc hr => rw [hc] at hf; simp at hf
  | sendOk k id r ht hcl hc hr => rw [hc] at hf; simp at hf
  | finishOk hcl hc => rw [hc] at hf; simp at hf
  | cancel err hc =>
    rw [hc] at hf
    simp only [ConsumerPc.cancel.injEq, reduceCtorEq, or_false] at hf
    subst hf
    exact Or.inr (Or.inl rfl)
  | finishErr err hcl hc =>
    rw [hc] at hf
    simp only [ConsumerPc.drain.injEq, reduceCtorEq, or_false, false_or] at hf
    subst hf
    exact Or.inr (Or.inr rfl)
  | next i hd hi | leave i hd hi | acquire i hd hsem | abandon i hd hc | waited hd hwg
  | close hd =>
    exact hf
  | go i id hd hid => exact hf
  | call k id ht | ret k id ht | done k id ht hwg | release k id ht hsem => exact hf
  | sendDrain k id r err ht hcl hc => exact hf
  | ctxDone hlive => exact hf

theorem tasksStepsLeft_set {α ε : Type} (tasks : List (String × TaskPc α ε)) (k : Nat)
    (id : String) (old new : TaskPc α ε) (ht : tasks[k]? = some (id, old)) :
    tasksStepsLeft (tasks.set k (id, new)) + old.stepsLeft =
      tasksStepsLeft tasks + new.stepsLeft :=
  sum_map_set (fun t : String × TaskPc α ε => t.2.stepsLeft) tasks k (id, old) (id, new) ht

theorem tasksStepsLeft_append {α ε : Type} (tasks : List (String × TaskPc α ε)) (id : String) :
    tasksStepsLeft (tasks ++ [(id, .call)]) = tasksStepsLeft tasks + 5 := by
  simp [tasksStepsLeft, TaskPc.stepsLeft]

/-- Every step uses up at least one of the steps left. -/
theorem Step.stepsLeft_lt {α ε : Type} {ids : List String} {loadFunc : itemLoadFunc α ε}
    {l : Label} {s s' : State α ε} (h : Step ids loadFunc l s s') :
    stepsLeft ids s' < stepsLeft ids s := by
  have hc01 : (if s.cancelled = true then 0 else 1) ≤ 1 := by split <;> omega
  cases h with
  | next i hd hi | leave i hd hi | acquire i hd hsem | abandon i hd hc | waited hd hwg
  | close hd =>
    simp only [stepsLeft, hd, DispatcherPc.stepsLeft]
    omega
  | go i id hd hid =>
    have hi : i < ids.length := (List.getElem?_eq_some.mp hid).1
    have e := tasksStepsLeft_append s.tasks id
    simp only [stepsLeft, hd, DispatcherPc.stepsLeft]
    omega
  | call k id ht =>
    have e := tasksStepsLeft_set s.tasks k id _ .fetching ht
    simp only [TaskPc.stepsLeft] at e
    simp only [stepsLeft]
    omega
  | ret k id ht =>
    have e := tasksStepsLeft_set s.tasks k id _ (.send (loadFunc s.cancelled id)) ht
    simp only [TaskPc.stepsLeft] at e
    simp only [stepsLeft]
    omega
  | sendErr k id r err ht hcl hc hr =>
    have e := tasksStepsLeft_set s.tasks k id _ .done ht
    simp only [TaskPc.stepsLeft] at e
    simp only [stepsLeft, hc, ConsumerPc.stepsLeft]
    omega
  | sendOk k id r ht hcl hc hr | sendDrain k id r err ht hcl hc =>
    have e := tasksStepsLeft_set s.tasks k id _ .done ht
    simp only [TaskPc.stepsLeft] at e
    simp only [stepsLeft]
    omega
  | done k id ht hwg =>
    have e := tasksStepsLeft_set s.tasks k id _ .release ht
    simp only [TaskPc.stepsLeft] at e
    simp only [stepsLeft]
    omega
  | release k id ht hsem =>
    have e := tasksStepsLeft_set s.tasks k id _ .exited ht
    simp only [TaskPc.stepsLeft] at e
    simp only [stepsLeft]
    omega
  | cancel err hc =>
    simp only [stepsLeft, hc, ConsumerPc.stepsLeft, if_true]
    omega
  | finishOk hcl hc | finishErr err hcl hc =>
    simp only [stepsLeft, hc, ConsumerPc.stepsLeft]
    omega
  | ctxDone hlive =>
    simp only [stepsLeft, hlive, if_true, Bool.false_eq_true, if_false]
    omega

/-- A property that holds at the start of a run and is kept by every step holds at
its end. -/
theorem exec_induction {α ε : Type} {ids : List String} {loadFunc : itemLoadFunc α ε}
    (P : State α ε → Prop)
    (hstep : ∀ l s s', Step ids loadFunc l s s' → P s → P s') :
    ∀ (tr : List Label) (s₀ s : State α ε), exec ids loadFunc tr s₀ = some s → P s₀ → P s := by
  intro tr
  induction tr with
  | nil =>
    intro s₀ s h h₀
    simp only [exec, Option.some.injEq] at h
    exact h ▸ h₀
  | cons l tr ih =>
    intro s₀ s h h₀
    simp only [exec] at h
    cases h1 : step ids loadFunc l s₀ with
    | none => simp [h1] at h
    | some s₁ =>
      rw [h1] at h
      exact ih s₁ s h (hstep l s₀ s₁ (step_sound h1) h₀)

/-- A property that holds at the start of a run and is kept by every step with a label
in `Q` holds at the end of a run of such steps. -/
theorem exec_induction_on {α ε : Type} {ids : List String} {loadFunc : itemLoadFunc α ε}
    (P : State α ε → Prop) (Q : Label → Prop)
    (hstep : ∀ l s s', Q l → Step ids loadFunc l s s' → P s → P s') :
    ∀ (tr : List Label) (s₀ s : State α ε), (∀ l, l ∈ tr → Q l) →
      exec ids loadFunc tr s₀ = some s → P s₀ → P s := by
  intro tr
  induction tr with
  | nil =>
    intro s₀ s _ h h₀
    simp only [exec, Option.some.injEq] at h
    exact h ▸ h₀
  | cons l tr ih =>
    intro s₀ s hq h h₀
    simp only [exec] at h
    cases h1 : step ids loadFunc l s₀ with
    | none => simp [h1] at h
    | some s₁ =>
      rw [h1] at h
      exact ih s₁ s (fun l' hl' => hq l' (List.mem_cons_of_mem _ hl')) h
        (hstep l s₀ s₁ (hq l (List.mem_cons_self _ _)) (step_sound h1) h₀)

/-- A run of `n` steps uses up at least `n` of the steps left. -/
theorem exec_stepsLeft {α ε : Type} {ids : List String} {loadFunc : itemLoadFunc α ε} :
    ∀ (tr : List Label) (s₀ s : State α ε), exec ids loadFunc tr s₀ = some s →
      stepsLeft ids s + tr.length ≤ stepsLeft ids s₀ := by
  intro tr
  induction tr with
  | nil =>
    intro s₀ s h
    simp only [exec, Option.some.injEq] at h
    simp [h]
  | cons l tr ih =>
    intro s₀ s h
    simp only [exec] at h
    cases h1 : step ids loadFunc l s₀ with
    | none => simp [h1] at h
    | some s₁ =>
      rw [h1] at h
      have := ih s₁ s h
      have := (step_sound h1).stepsLeft_lt
      simp only [List.length_cons]
      omega

theorem exists_pos_of_sum_pos {β : Type} (w : β → Nat) :
    ∀ l : List β, 0 < (l.map w).sum → ∃ (k : Nat) (t : β), l[k]? = some t ∧ 0 < w t := by
  intro l
  induction l with
  | nil => intro h; simp at h
  | cons x xs ih =>
    intro h
    simp only [List.map_cons, List.sum_cons] at h
    by_cases hx : 0 < w x
    · exact ⟨0, x, by simp, hx⟩
    · obtain ⟨k, t, hk, ht⟩ := ih (by omega)
      exact ⟨k + 1, t, by simpa using hk, ht⟩

theorem le_sum_of_getElem? {β : Type} (w : β → Nat) :
    ∀ (l : List β) (k : Nat) (t : β), l[k]? = some t → w t ≤ (l.map w).sum := by
  intro l k t h
  have hmem : t ∈ l := List.mem_iff_getElem?.mpr ⟨k, h⟩
  exact List.single_le_sum (by simp) _ (List.mem_map.mpr ⟨t, hmem, rfl⟩)

/-- An action of a goroutine that is enabled gives a step of the call. -/
theorem enabled_of_isSome {α ε : Type} {ids : List String} {loadFunc : itemLoadFunc α ε}
    {s : State α ε} (l : Label) (hl : l ≠ .ctxDone)
    (h : (step ids loadFunc l s).isSome = true) :
    ∃ l s', l ≠ .ctxDone ∧ step ids loadFunc l s = some s' := by
  obtain ⟨s', hs⟩ := Option.isSome_iff_exists.mp h
  exact ⟨l, s', hl, hs⟩

/-- A task that has not ended can take its next step, as long as the caller is
receiving when the task wants to send. -/
theorem task_enabled {α ε : Type} (ids : List String) (loadFunc : itemLoadFunc α ε)
    (s : State α ε) (inv : Inv s) (k : Nat) (id : String) (pc : TaskPc α ε)
    (ht : s.tasks[k]? = some (id, pc)) (hpc : 0 < pc.holdsSlot)
    (hcl : s.closed = false) (hc : s.cons = .receive) :
    ∃ l s', l ≠ .ctxDone ∧ step ids loadFunc l s = some s' := by
  cases pc with
  | call => exact enabled_of_isSome (.call k) (by simp) (by simp [step, ht])
  | fetching => exact enabled_of_isSome (.ret k) (by simp) (by simp [step, ht])
  | send r =>
    cases hr : r.err with
    | none => exact enabled_of_isSome (.send k) (by simp) (by simp [step, ht, hcl, hc, hr])
    | some err => exact enabled_of_isSome (.send k) (by simp) (by simp [step, ht, hcl, hc, hr])
  | done =>
    have h1 : (TaskPc.done : TaskPc α ε).counted ≤ tasksCounted s.tasks :=
      le_sum_of_getElem? (fun t : String × TaskPc α ε => t.2.counted) s.tasks k _ ht
    have h2 := inv.counted
    simp only [TaskPc.counted] at h1
    have : 0 < s.wg := by omega
    exact enabled_of_isSome (.done k) (by simp) (by simp [step, ht, this])
  | release =>
    have h1 : (TaskPc.release : TaskPc α ε).holdsSlot ≤ slotsHeld s.tasks :=
      le_sum_of_getElem? (fun t : String × TaskPc α ε => t.2.holdsSlot) s.tasks k _ ht
    have h2 := inv.slots
    simp only [TaskPc.holdsSlot] at h1
    have : 0 < s.sem := by omega
    exact enabled_of_isSome (.release k) (by simp) (by simp [step, ht, this])
  | exited => simp [TaskPc.holdsSlot] at hpc

theorem holdsSlot_of_counted {α ε : Type} (pc : TaskPc α ε) (h : 0 < pc.counted) :
    0 < pc.holdsSlot := by
  cases pc <;> simp_all [TaskPc.counted, TaskPc.holdsSlot]

/-- As long as the context is live and the caller has received no error, some
goroutine can take a step until `loadDetails` has returned. -/
theorem Good.progress {α ε : Type} {ids : List String} {loadFunc : itemLoadFunc α ε}
    {s : State α ε} (g : Good ids loadFunc s) (inv : Inv s) (hret : s.hasReturned = false) :
    ∃ l s', l ≠ .ctxDone ∧ step ids loadFunc l s = some s' := by
  have hc : s.cons = .receive := by
    rcases g.caller with h | h
    · exact h
    · simp [State.hasReturned, h.1] at hret
  have hpos := g.pos
  have hshut := g.shut
  have hslots := inv.slots
  have hcount := g.count
  cases hd : s.disp with
  | loop i =>
    by_cases hi : i < ids.length
    · exact enabled_of_isSome (.next) (by simp) (by simp [step, hd, hi])
    · exact enabled_of_isSome (.leave) (by simp) (by simp [step, hd, Nat.le_of_not_lt hi])
  | select i =>
    by_cases hsem : s.sem < maxConcurrency
    · exact enabled_of_isSome (.acquire) (by simp) (by simp [step, hd, hsem])
    · simp only [hd, DispatcherPc.holdsSlot, reduceCtorEq, iff_false] at hslots hshut
      have hpos' : 0 < slotsHeld s.tasks := by
        have : maxConcurrency = 10 := rfl
        omega
      obtain ⟨k, t, hk, ht⟩ := exists_pos_of_sum_pos _ _ hpos'
      exact task_enabled ids loadFunc s inv k t.1 t.2 hk ht (by simpa using hshut) hc
  | spawn i =>
    simp only [hd, DispatcherPc.position] at hpos
    have hi : i < ids.length := hpos.2
    exact enabled_of_isSome (.go) (by simp) (by simp [step, hd, List.getElem?_eq_getElem hi])
  | wait =>
    by_cases hwg : s.wg = 0
    · exact enabled_of_isSome (.waited) (by simp) (by simp [step, hd, hwg])
    · simp only [hd, DispatcherPc.counted, reduceCtorEq, iff_false] at hcount hshut
      have hpos' : 0 < tasksCounted s.tasks := by omega
      obtain ⟨k, t, hk, ht⟩ := exists_pos_of_sum_pos _ _ hpos'
      exact task_enabled ids loadFunc s inv k t.1 t.2 hk (holdsSlot_of_counted _ ht)
        (by simpa using hshut) hc
  | close => exact enabled_of_isSome (.close) (by simp) (by simp [step, hd])
  | exited =>
    have hcl : s.closed = true := hshut.mpr hd
    exact enabled_of_isSome (.finish) (by simp) (by simp [step, hcl, hc])

theorem delivered_sum_of_all_counted {α ε : Type} (loadFunc : itemLoadFunc α ε) :
    ∀ tasks : List (String × TaskPc α ε), tasksCounted tasks = 0 →
      (tasks.map (delivered loadFunc)).sum =
        ((tasks.map (fun t => (loadFunc false t.1).item) : List α) : Multiset α) := by
  intro tasks
  induction tasks with
  | nil => intro _; rfl
  | cons t ts ih =>
    intro h
    simp only [tasksCounted, List.map_cons, List.sum_cons, Nat.add_eq_zero] at h
    have ht : delivered loadFunc t = {(loadFunc false t.1).item} := by
      obtain ⟨id, pc⟩ := t
      cases pc <;> simp_all [delivered, TaskPc.counted]
    simp only [List.map_cons, List.sum_cons, ht, ih h.2]
    rfl

/-- In a call in which no fetch fails, a return of `loadDetails` is with a nil error
and with the fetched items of all ids, in some order. -/
theorem Good.result {α ε : Type} {ids : List String} {loadFunc : itemLoadFunc α ε}
    {s : State α ε} (g : Good ids loadFunc s) (items : Option (List α)) (err : Option ε)
    (hc : s.cons = .returned items err) :
    err = none ∧ ∃ xs, items = some xs ∧ xs.length = ids.length ∧
      xs.Perm (ids.map (fun id => (loadFunc false id).item)) := by
  rcases g.caller with h | ⟨h, hcl⟩
  · rw [hc] at h
    simp at h
  · rw [hc] at h
    simp only [ConsumerPc.returned.injEq] at h
    have hd : s.disp = .exited := g.shut.mp hcl
    have hwg : s.wg = 0 := g.closing (Or.inr hd)
    have hcount := g.count
    have hpos := g.pos
    simp only [hd, DispatcherPc.position, DispatcherPc.counted] at hcount hpos
    have hzero : tasksCounted s.tasks = 0 := by omega
    have hsum := delivered_sum_of_all_counted loadFunc s.tasks hzero
    have horder := g.order
    rw [hpos, List.take_length] at horder
    have hmap : s.tasks.map (fun t => (loadFunc false t.1).item) =
        ids.map (fun id => (loadFunc false id).item) := by
      rw [← horder, List.map_map]
      rfl
    have hperm : s.items.Perm (ids.map (fun id => (loadFunc false id).item)) := by
      rw [← Multiset.coe_eq_coe, g.got, hsum, hmap]
    exact ⟨h.2, s.items, h.1, by rw [hperm.length_eq, List.length_map], hperm⟩

/-- In a call in which no fetch fails, every state reached with a live context has a
continuation, without a cancellation of the caller's context, in which `loadDetails`
returns. -/
theorem Good.can_return {α ε : Type} {ids : List String} {loadFunc : itemLoadFunc α ε}
    (hok : ∀ id, id ∈ ids → (loadFunc false id).err = none) :
    ∀ (n : Nat) (s : State α ε), stepsLeft ids s ≤ n → Good ids loadFunc s → Inv s →
      ∃ tr s', Label.ctxDone ∉ tr ∧ exec ids loadFunc tr s = some s' ∧
        s'.hasReturned = true := by
  intro n
  induction n with
  | zero =>
    intro s hn g inv
    cases hret : s.hasReturned with
    | true => exact ⟨[], s, by simp, rfl, hret⟩
    | false =>
      obtain ⟨l, s₁, _, h1⟩ := g.progress inv hret
      have := (step_sound h1).stepsLeft_lt
      omega
  | succ n ih =>
    intro s hn g inv
    cases hret : s.hasReturned with
    | true => exact ⟨[], s, by simp, rfl, hret⟩
    | false =>
      obtain ⟨l, s₁, hl, h1⟩ := g.progress inv hret
      have hlt := (step_sound h1).stepsLeft_lt
      obtain ⟨tr, s', h0, h2, h3⟩ := ih s₁ (by omega)
        (good_step (step_sound h1) g hl (no_error_step hok (step_sound h1) g))
        (inv_step (step_sound h1) inv)
      refine ⟨l :: tr, s', ?_, by simp [exec, h1, h2], h3⟩
      intro hmem
      rcases List.mem_cons.mp hmem with h | h
      · exact hl h.symm
      · exact h0 h

theorem inFlight_le_slotsHeld {α ε : Type} (s : State α ε) : inFlight s ≤ slotsHeld s.tasks := by
  apply List.sum_le_sum
  intro t _
  cases t.2 <;> simp [TaskPc.inFlight, TaskPc.holdsSlot]

/-- A state in which the dispatcher waits on a non-zero `wg`, every task has ended, the
caller waits on the open `resultsCh` and the context is done has no step. -/
theorem stuck_of_waiting {α ε : Type} (ids : List String) (loadFunc : itemLoadFunc α ε)
    (s : State α ε) (hd : s.disp = .wait) (hwg : s.wg ≠ 0)
    (ht : ∀ t, t ∈ s.tasks → t.2 = .exited) (hcl : s.closed = false)
    (hc : ∀ e, s.cons ≠ .cancel e) (hdone : s.cancelled = true) :
    ∀ l, step ids loadFunc l s = none := by
  intro l
  cases h : step ids loadFunc l s with
  | none => rfl
  | some s' =>
    exfalso
    have htask : ∀ (k : Nat) (id : String) (pc : TaskPc α ε),
        s.tasks[k]? = some (id, pc) → pc = TaskPc.exited := fun k id pc hk =>
      ht (id, pc) (List.mem_iff_getElem?.mpr ⟨k, hk⟩)
    cases step_sound h with
    | next i hd' hi | leave i hd' hi | acquire i hd' hsem | abandon i hd' hc' =>
      rw [hd] at hd'; simp at hd'
    | go i id hd' hid => rw [hd] at hd'; simp at hd'
    | waited hd' hwg' => exact hwg hwg'
    | close hd' => rw [hd] at hd'; simp at hd'
    | call k id ht' | ret k id ht' | done k id ht' hwg' | release k id ht' hsem =>
      have := htask k id _ ht'; simp at this
    | sendErr k id r err' ht' hcl' hc' hr | sendOk k id r ht' hcl' hc' hr
    | sendDrain k id r err' ht' hcl' hc' =>
      have := htask k id _ ht'; simp at this
    | cancel err' hc' => exact hc err' hc'
    | finishOk hcl' hc' | finishErr err' hcl' hc' => rw [hcl] at hcl'; simp at hcl'
    | ctxDone hlive => rw [hdone] at hlive; simp at hlive

theorem lost_abandon {α ε : Type} {ids : List String} {loadFunc : itemLoadFunc α ε}
    {s s' : State α ε} (h : Step ids loadFunc .abandon s s') (inv : Inv s) : Lost s' := by
  cases h with
  | abandon i hd hc =>
    have h3 := inv.counted
    have h4 := inv.shut
    have h5 := inv.back
    simp only [hd, DispatcherPc.counted, reduceCtorEq, imp_false] at h3 h4
    have hcl : s.closed = false := by simpa using h4
    refine ⟨rfl, by dsimp only; omega, hcl, ?_⟩
    cases hr : s.hasReturned with
    | false => simpa [State.hasReturned] using hr
    | true => simp [h5 hr] at hcl

theorem lost_step {α ε : Type} {ids : List String} {loadFunc : itemLoadFunc α ε}
    {l : Label} {s s' : State α ε} (h : Step ids loadFunc l s s') (lost : Lost s) : Lost s' := by
  obtain ⟨h1, h2, h3, h4⟩ := lost
  cases h with
  | next i hd hi | leave i hd hi | acquire i hd hsem | abandon i hd hc =>
    rw [h1] at hd; simp at hd
  | go i id hd hid => rw [h1] at hd; simp at hd
  | waited hd hwg => omega
  | close hd => rw [h1] at hd; simp at hd
  | call k id ht =>
    have e := tasksCounted_set s.tasks k id _ .fetching ht
    simp only [TaskPc.counted] at e
    exact ⟨h1, by dsimp only; omega, h3, h4⟩
  | ret k id ht =>
    have e := tasksCounted_set s.tasks k id _ (.send (loadFunc s.cancelled id)) ht
    simp only [TaskPc.counted] at e
    exact ⟨h1, by dsimp only; omega, h3, h4⟩
  | sendErr k id r err ht hcl hc hr =>
    have e := tasksCounted_set s.tasks k id _ .done ht
    simp only [TaskPc.counted] at e
    exact ⟨h1, by dsimp only; omega, h3, by simp [State.hasReturned]⟩
  | sendOk k id r ht hcl hc hr =>
    have e := tasksCounted_set s.tasks k id _ .done ht
    simp only [TaskPc.counted] at e
    exact ⟨h1, by dsimp only; omega, h3, h4⟩
  | sendDrain k id r err ht hcl hc =>
    have e := tasksCounted_set s.tasks k id _ .done ht
    simp only [TaskPc.counted] at e
    exact ⟨h1, by dsimp only; omega, h3, h4⟩
  | done k id ht hwg =>
    have e := tasksCounted_set s.tasks k id _ .release ht
    simp only [TaskPc.counted] at e
    exact ⟨h1, by dsimp only; omega, h3, h4⟩
  | release k id ht hsem =>
    have e := tasksCounted_set s.tasks k id _ .exited ht
    simp only [TaskPc.counted] at e
    exact ⟨h1, by dsimp only; omega, h3, h4⟩
  | cancel err hc => exact ⟨h1, h2, h3, by simp [State.hasReturned]⟩
  | finishOk hcl hc | finishErr err hcl hc => rw [h3] at hcl; simp at hcl
  | ctxDone hlive => exact ⟨h1, h2, h3, h4⟩

theorem exec_append {α ε : Type} (ids : List String) (loadFunc : itemLoadFunc α ε) :
    ∀ (tr₁ tr₂ : List Label) (s : State α ε),
      exec ids loadFunc (tr₁ ++ tr₂) s =
        (exec ids loadFunc tr₁ s).bind (exec ids loadFunc tr₂) := by
  intro tr₁
  induction tr₁ with
  | nil => intro tr₂ s; rfl
  | cons l tr ih =>
    intro tr₂ s
    simp only [List.cons_append, exec]
    cases step ids loadFunc l s with
    | none => rfl
    | some s₁ => simp [ih]

theorem loadDetails_eq_some {α ε : Type} {done : Bool} {ids : List String}
    {loadFunc : itemLoadFunc α ε} {tr : List Label} {r : Option (List α) × Option ε}
    (h : loadDetails done ids loadFunc tr = some r) :
    ∃ s, exec ids loadFunc tr (init done) = some s ∧ s.cons = .returned r.1 r.2 := by
  unfold loadDetails at h
  cases hs : exec ids loadFunc tr (init done) with
  | none => simp [hs] at h
  | some s =>
    rw [hs] at h
    cases hc : s.cons with
    | returned items err =>
      simp only [hc, Option.some.injEq] at h
      subst h
      exact ⟨s, rfl, hc⟩
    | receive => simp [hc] at h
    | cancel e => simp [hc] at h
    | drain e => simp [hc] at h

/-- From a state without a step, no schedule leads to a return of `loadDetails`,
unless it has returned already. -/
theorem loadDetails_none_of_stuck {α ε : Type} (done : Bool) (ids : List String)
    (loadFunc : itemLoadFunc α ε) (tr₁ : List Label) (s : State α ε)
    (h₁ : exec ids loadFunc tr₁ (init done) = some s) (hret : s.hasReturned = false)
    (hstuck : ∀ l, step ids loadFunc l s = none) (tr₂ : List Label) :
    loadDetails done ids loadFunc (tr₁ ++ tr₂) = none := by
  unfold loadDetails
  rw [exec_append, h₁]
  cases tr₂ with
  | nil =>
    simp only [Option.some_bind, exec]
    cases hc : s.cons with
    | returned items err => simp [State.hasReturned, hc] at hret
    | receive => rfl
    | cancel e => rfl
    | drain e => rfl
  | cons l tr => simp [exec, hstuck l]

theorem counted_eq_zero_of_mem {α ε : Type} (tasks : List (String × TaskPc α ε))
    (h : tasksCounted tasks = 0) (t : String × TaskPc α ε) (ht : t ∈ tasks) :
    t.2.counted = 0 := by
  obtain ⟨k, hk⟩ := List.mem_iff_getElem?.mp ht
  have hle : t.2.counted ≤ tasksCounted tasks :=
    le_sum_of_getElem? (fun t : String × TaskPc α ε => t.2.counted) tasks k t hk
  omega

theorem sent_of_counted_eq_zero {α ε : Type} (pc : TaskPc α ε) (h : pc.counted = 0) :
    pc.sent = true := by
  cases pc <;> simp_all [TaskPc.counted, TaskPc.sent]

/-- When `loadDetails` has returned while `Good` holds, every id has been fetched
without error. -/
theorem Good.all_fetched {α ε : Type} {ids : List String} {loadFunc : itemLoadFunc α ε}
    {s : State α ε} (g : Good ids loadFunc s) (hret : s.hasReturned = true) :
    ∀ id, id ∈ ids → (loadFunc false id).err = none := by
  intro id hid
  have hcl : s.closed = true := by
    rcases g.caller with h | h
    · simp [State.hasReturned, h] at hret
    · exact h.2
  have hd : s.disp = .exited := g.shut.mp hcl
  have hwg : s.wg = 0 := g.closing (Or.inr hd)
  have hcount := g.count
  have hpos := g.pos
  simp only [hd, DispatcherPc.position, DispatcherPc.counted] at hcount hpos
  have hzero : tasksCounted s.tasks = 0 := by omega
  have horder := g.order
  rw [hpos, List.take_length] at horder
  rw [← horder] at hid
  obtain ⟨t, ht, rfl⟩ := List.mem_map.mp hid
  have hc := counted_eq_zero_of_mem s.tasks hzero t ht
  exact g.clean t ht (sent_of_counted_eq_zero t.2 hc)

theorem failedWith_exec {α ε : Type} {ids : List String} {loadFunc : itemLoadFunc α ε}
    (e : ε) (tr : List Label) (s₀ s : State α ε) (h : exec ids loadFunc tr s₀ = some s)
    (hf : FailedWith e s₀) : FailedWith e s :=
  exec_induction (FailedWith e) (fun _ _ _ hs => failedWith_step hs e) tr s₀ s h hf

/-- A run without a cancellation of the caller's context that ends with the caller
still receiving, or returned without an error, has kept `Good` throughout. -/
theorem good_exec {α ε : Type} {ids : List String} {loadFunc : itemLoadFunc α ε} :
    ∀ (tr : List Label) (s₀ s : State α ε), Label.ctxDone ∉ tr →
      exec ids loadFunc tr s₀ = some s →
      Good ids loadFunc s₀ → (∀ e, ¬ FailedWith e s) → Good ids loadFunc s := by
  intro tr
  induction tr with
  | nil =>
    intro s₀ s _ h g _
    simp only [exec, Option.some.injEq] at h
    exact h ▸ g
  | cons l tr ih =>
    intro s₀ s hq h g hnf
    simp only [exec] at h
    cases h1 : step ids loadFunc l s₀ with
    | none => simp [h1] at h
    | some s₁ =>
      rw [h1] at h
      simp only [Option.some_bind] at h
      have hl : l ≠ .ctxDone := fun e => hq (e ▸ List.mem_cons_self _ _)
      refine ih s₁ s (fun hm => hq (List.mem_cons_of_mem _ hm)) h
        (good_step (step_sound h1) g hl ?_) hnf
      intro e he
      exact hnf e (failedWith_exec e tr s₁ s h (Or.inl he))

/-- If the fetch of some id fails while the context is live, `loadDetails` called with
a live context that the caller does not cancel does not return items: when it returns,
it returns no items and an error. -/
theorem returns_error_of_failing_id {α ε : Type} (ids : List String)
    (loadFunc : itemLoadFunc α ε) (id : String) (hid : id ∈ ids)
    (hbad : (loadFunc false id).err ≠ none)
    (tr : List Label) (hlive : Label.ctxDone ∉ tr) (r : Option (List α) × Option ε)
    (h : loadDetails false ids loadFunc tr = some r) : r.1 = none ∧ ∃ e, r.2 = some e := by
  obtain ⟨s, hs, hc⟩ := loadDetails_eq_some h
  have inv : Inv s :=
    exec_induction Inv (fun _ _ _ h => inv_step h) tr (init false) s hs (inv_init false)
  rcases inv.shape _ _ hc with ⟨h1, h2⟩ | h2
  · exfalso
    have hnf : ∀ e, ¬ FailedWith e s := by
      intro e hf
      rcases hf with hf | hf | hf
      · rw [hc] at hf; simp at hf
      · rw [hc] at hf; simp at hf
      · rw [hc, h2] at hf; simp at hf
    have g := good_exec tr (init false) s hlive hs (good_init ids loadFunc) hnf
    exact hbad (g.all_fetched (by simp [State.hasReturned, hc]) id hid)
  · exact h2

/-- When the caller is handed an error `e` by a task, a later return of `loadDetails`
is with no items and with `e` itself. -/
theorem returns_first_error {α ε : Type} (done : Bool) (ids : List String)
    (loadFunc : itemLoadFunc α ε) (tr₁ tr₂ : List Label) (k : Nat) (e : ε)
    (s₁ s₂ : State α ε) (r : Option (List α) × Option ε)
    (h₁ : exec ids loadFunc tr₁ (init done) = some s₁)
    (h₂ : step ids loadFunc (.send k) s₁ = some s₂) (he : s₂.cons = .cancel e)
    (h₃ : loadDetails done ids loadFunc (tr₁ ++ .send k :: tr₂) = some r) :
    r = (none, some e) := by
  obtain ⟨s, hs, hc⟩ := loadDetails_eq_some h₃
  rw [exec_append, h₁] at hs
  simp only [Option.some_bind, exec, h₂] at hs
  have hf := failedWith_exec e tr₂ s₂ s hs (Or.inl he)
  rcases hf with hf | hf | hf
  · rw [hc] at hf; simp at hf
  · rw [hc] at hf; simp at hf
  · rw [hc] at hf
    simp only [ConsumerPc.returned.injEq] at hf
    exact Prod.ext hf.1 hf.2

/-- A task that is about to act on `resultsCh`, `wg` or `sem` finds them as it needs
them: `resultsCh` is open when it wants to send, the counter of `wg` is positive when
it wants to run `wg.Done()`, and `sem` is not empty when it wants to receive from it. -/
theorem guards_hold {α ε : Type} (done : Bool) (ids : List String)
    (loadFunc : itemLoadFunc α ε) (tr : List Label) (s : State α ε)
    (hs : exec ids loadFunc tr (init done) = some s)
    (k : Nat) (id : String) (pc : TaskPc α ε) (ht : s.tasks[k]? = some (id, pc)) :
    ((∃ r, pc = .send r) → s.closed = false) ∧ (pc = .done → 0 < s.wg) ∧
      (pc = .release → 0 < s.sem) := by
  have inv : Inv s :=
    exec_induction Inv (fun _ _ _ h => inv_step h) tr (init done) s hs (inv_init done)
  have h1 : pc.counted ≤ tasksCounted s.tasks :=
    le_sum_of_getElem? (fun t : String × TaskPc α ε => t.2.counted) s.tasks k _ ht
  have h2 : pc.holdsSlot ≤ slotsHeld s.tasks :=
    le_sum_of_getElem? (fun t : String × TaskPc α ε => t.2.holdsSlot) s.tasks k _ ht
  have h3 := inv.counted
  have h4 := inv.slots
  refine ⟨?_, ?_, ?_⟩
  · rintro ⟨r, rfl⟩
    cases hcl : s.closed with
    | false => rfl
    | true =>
      have := inv.quiet (Or.inr (inv.shut hcl))
      simp only [TaskPc.counted] at h1
      omega
  · rintro rfl
    simp only [TaskPc.counted] at h1
    omega
  · rintro rfl
    simp only [TaskPc.holdsSlot] at h2
    omega

/-- Once the dispatcher has taken the `ctx.Done()` case of the `select`, no schedule
leads to a return of `loadDetails`. -/
theorem never_returns_after_abandon {α ε : Type} (done : Bool) (ids : List String)
    (loadFunc : itemLoadFunc α ε) (tr₁ tr₂ : List Label) (s₁ s₂ : State α ε)
    (h₁ : exec ids loadFunc tr₁ (init done) = some s₁)
    (h₂ : step ids loadFunc .abandon s₁ = some s₂) :
    loadDetails done ids loadFunc (tr₁ ++ .abandon :: tr₂) = none := by
  have inv : Inv s₁ :=
    exec_induction Inv (fun _ _ _ h => inv_step h) tr₁ (init done) s₁ h₁ (inv_init done)
  have lost : Lost s₂ := lost_abandon (step_sound h₂) inv
  unfold loadDetails
  rw [exec_append, h₁]
  simp only [Option.some_bind, exec, h₂]
  cases h₃ : exec ids loadFunc tr₂ s₂ with
  | none => rfl
  | some s₃ =>
    have hret := (exec_induction Lost (fun _ _ _ h => lost_step h) tr₂ s₂ s₃ h₃ lost).inside
    cases hc : s₃.cons with
    | returned items err => simp [State.hasReturned, hc] at hret
    | receive => simp [hc]
    | cancel e => simp [hc]
    | drain e => simp [hc]

theorem core_init {α ε : Type} (done : Bool) (ids : List String)
    (loadFunc : itemLoadFunc α ε) : Core ids loadFunc (init done : State α ε) where
  caller := Or.inl rfl
  sent := by intro t ht; simp [init] at ht
  order := by simp [init]
  pos := by simp [init, DispatcherPc.position]
  count := rfl
  closing := by simp [init]
  shut := by simp [init]
  clean := by intro t ht; simp [init] at ht

/-- A step other than the return of the dispatcher on `ctx.Done()` that does not hand an
error to the caller keeps `Core`. -/
theorem core_step {α ε : Type} {ids : List String} {loadFunc : itemLoadFunc α ε}
    {l : Label} {s s' : State α ε} (h : Step ids loadFunc l s s')
    (c : Core ids loadFunc s) (hl : l ≠ .abandon) (hne : ∀ err, s'.cons ≠ .cancel err) :
    Core ids loadFunc s' := by
  have hpos := c.pos
  have hwg := c.count
  have hclosing := c.closing
  have hclosed := c.shut
  cases h with
  | next i hd hi =>
    simp only [hd, DispatcherPc.position, DispatcherPc.counted, reduceCtorEq, or_self,
      false_imp_iff, iff_false] at hpos hwg hclosing hclosed
    exact { c with
      pos := ⟨hpos.1, hi⟩
      count := by simp only [DispatcherPc.counted]; omega
      closing := by simp
      shut := by simpa using hclosed }
  | leave i hd hi =>
    simp only [hd, DispatcherPc.position, DispatcherPc.counted, reduceCtorEq, or_self,
      false_imp_iff, iff_false] at hpos hwg hclosing hclosed
    exact { c with
      pos := by simp only [DispatcherPc.position]; omega
      count := by simp only [DispatcherPc.counted]; omega
      closing := by simp
      shut := by simpa using hclosed }
  | acquire i hd hsem =>
    simp only [hd, DispatcherPc.position, DispatcherPc.counted, reduceCtorEq, or_self,
      false_imp_iff, iff_false] at hpos hwg hclosing hclosed
    exact { c with
      pos := hpos
      count := by simp only [DispatcherPc.counted]; omega
      closing := by simp
      shut := by simpa using hclosed }
  | abandon i hd hc => exact absurd rfl hl
  | go i id hd hid =>
    simp only [hd, DispatcherPc.position, DispatcherPc.counted, reduceCtorEq, or_self,
      false_imp_iff, iff_false] at hpos hwg hclosing hclosed
    exact {
      caller := c.caller
      sent := by
        intro t ht r hr
        rcases List.mem_append.mp ht with ht | ht
        · exact c.sent t ht r hr
        · simp only [List.mem_singleton] at ht
          subst ht
          simp at hr
      order := by
        simp only [List.map_append, List.map_cons, List.map_nil, List.length_append,
          List.length_singleton]
        rw [List.take_succ, c.order, hpos.1, hid]
        rfl
      pos := by simp only [DispatcherPc.position, List.length_append, List.length_singleton]; omega
      count := by
        have e := tasksCounted_append s.tasks id
        simp only [DispatcherPc.counted]; omega
      closing := by simp
      shut := by simpa using hclosed
      clean := by
        intro t ht hs
        rcases List.mem_append.mp ht with ht | ht
        · exact c.clean t ht hs
        · simp only [List.mem_singleton] at ht
          subst ht
          simp [TaskPc.sent] at hs }
  | waited hd hwg0 =>
    simp only [hd, DispatcherPc.position, DispatcherPc.counted, reduceCtorEq, or_self,
      false_imp_iff, iff_false] at hpos hwg hclosing hclosed
    exact { c with
      pos := hpos
      count := by simp only [DispatcherPc.counted]; omega
      closing := fun _ => hwg0
      shut := by simpa using hclosed }
  | close hd =>
    simp only [hd, DispatcherPc.position, DispatcherPc.counted, reduceCtorEq, or_true,
      true_or, true_imp_iff, iff_false] at hpos hwg hclosing hclosed
    exact { c with
      caller := by
        rcases c.caller with h | h
        · exact Or.inl h
        · exact absurd h.2 (by simpa using hclosed)
      pos := hpos
      count := by simp only [DispatcherPc.counted]; omega
      closing := fun _ => hclosing
      shut := by simp }
  | call k id ht =>
    exact {
      caller := c.caller
      sent := by
        intro t hmem r' hr'
        rcases List.mem_or_eq_of_mem_set hmem with hmem | rfl
        · exact c.sent t hmem r' hr'
        · simp at hr'
      order := by
        rw [List.length_set, map_fst_set s.tasks k id _ _ ht]
        exact c.order
      pos := by
        rw [List.length_set]
        exact hpos
      count := by
        have e := tasksCounted_set s.tasks k id _ .fetching ht
        simp only [TaskPc.counted] at e
        dsimp only
        omega
      closing := hclosing
      shut := hclosed
      clean := by
        intro t hmem hs
        rcases List.mem_or_eq_of_mem_set hmem with hmem | rfl
        · exact c.clean t hmem hs
        · simp [TaskPc.sent] at hs }
  | ret k id ht =>
    exact {
      caller := c.caller
      sent := by
        intro t hmem r' hr'
        rcases List.mem_or_eq_of_mem_set hmem with hmem | rfl
        · exact c.sent t hmem r' hr'
        · simp only [TaskPc.send.injEq] at hr'
          exact ⟨s.cancelled, hr'.symm⟩
      order := by
        rw [List.length_set, map_fst_set s.tasks k id _ _ ht]
        exact c.order
      pos := by
        rw [List.length_set]
        exact hpos
      count := by
        have e := tasksCounted_set s.tasks k id _ (.send (loadFunc s.cancelled id)) ht
        simp only [TaskPc.counted] at e
        dsimp only
        omega
      closing := hclosing
      shut := hclosed
      clean := by
        intro t hmem hs
        rcases List.mem_or_eq_of_mem_set hmem with hmem | rfl
        · exact c.clean t hmem hs
        · simp [TaskPc.sent] at hs }
  | sendErr k id r err ht hcl hc hr => exact absurd rfl (hne err)
  | sendOk k id r ht hcl hc hr =>
    exact {
      caller := by
        rcases c.caller with h | h
        · exact Or.inl h
        · obtain ⟨⟨xs, h1⟩, _⟩ := h
          rw [hc] at h1
          simp at h1
      sent := by
        intro t hmem r' hr'
        rcases List.mem_or_eq_of_mem_set hmem with hmem | rfl
        · exact c.sent t hmem r' hr'
        · simp at hr'
      order := by
        rw [List.length_set, map_fst_set s.tasks k id _ _ ht]
        exact c.order
      pos := by
        rw [List.length_set]
        exact hpos
      count := by
        have e := tasksCounted_set s.tasks k id _ .done ht
        simp only [TaskPc.counted] at e
        dsimp only
        omega
      closing := hclosing
      shut := hclosed
      clean := by
        intro t hmem hs
        rcases List.mem_or_eq_of_mem_set hmem with hmem | rfl
        · exact c.clean t hmem hs
        · obtain ⟨b, hb⟩ := c.sent (id, .send r) (List.mem_iff_getElem?.mpr ⟨k, ht⟩) r rfl
          exact ⟨b, by rw [← hb]; exact hr⟩ }
  | sendDrain k id r err ht hcl hc =>
    rcases c.caller with h | h
    · rw [hc] at h
      simp at h
    · obtain ⟨⟨xs, h1⟩, _⟩ := h
      rw [hc] at h1
      simp at h1
  | done k id ht hwg0 =>
    exact {
      caller := c.caller
      sent := by
        intro t hmem r' hr'
        rcases List.mem_or_eq_of_mem_set hmem with hmem | rfl
        · exact c.sent t hmem r' hr'
        · simp at hr'
      order := by
        rw [List.length_set, map_fst_set s.tasks k id _ _ ht]
        exact c.order
      pos := by
        rw [List.length_set]
        exact hpos
      count := by
        have e := tasksCounted_set s.tasks k id _ .release ht
        simp only [TaskPc.counted] at e
        dsimp only
        omega
      closing := by
        intro h
        have := hclosing h
        show s.wg - 1 = 0
        omega
      shut := hclosed
      clean := by
        intro t hmem hs
        rcases List.mem_or_eq_of_mem_set hmem with hmem | rfl
        · exact c.clean t hmem hs
        · exact c.clean (id, .done) (List.mem_iff_getElem?.mpr ⟨k, ht⟩) rfl }
  | release k id ht hsem =>
    exact {
      caller := c.caller
      sent := by
        intro t hmem r' hr'
        rcases List.mem_or_eq_of_mem_set hmem with hmem | rfl
        · exact c.sent t hmem r' hr'
        · simp at hr'
      order := by
        rw [List.length_set, map_fst_set s.tasks k id _ _ ht]
        exact c.order
      pos := by
        rw [List.length_set]
        exact hpos
      count := by
        have e := tasksCounted_set s.tasks k id _ .exited ht
        simp only [TaskPc.counted] at e
        dsimp only
        omega
      closing := hclosing
      shut := hclosed
      clean := by
        intro t hmem hs
        rcases List.mem_or_eq_of_mem_set hmem with hmem | rfl
        · exact c.clean t hmem hs
        · exact c.clean (id, .release) (List.mem_iff_getElem?.mpr ⟨k, ht⟩) rfl }
  | cancel err hc =>
    rcases c.caller with h | h
    · rw [hc] at h
      simp at h
    · obtain ⟨⟨xs, h1⟩, _⟩ := h
      rw [hc] at h1
      simp at h1
  | finishOk hcl hc => exact { c with caller := Or.inr ⟨⟨s.items, rfl⟩, hcl⟩ }
  | finishErr err hcl hc =>
    rcases c.caller with h | h
    · rw [hc] at h
      simp at h
    · obtain ⟨⟨xs, h1⟩, _⟩ := h
      rw [hc] at h1
      simp at h1
  | ctxDone hlive =>
    exact ⟨c.caller, c.sent, c.order, c.pos, c.count, c.closing, c.shut, c.clean⟩

/-- A run in which the dispatcher does not return on `ctx.Done()` and that ends with the
caller still receiving, or returned without an error, has kept `Core` throughout. -/
theorem core_exec {α ε : Type} {ids : List String} {loadFunc : itemLoadFunc α ε} :
    ∀ (tr : List Label) (s₀ s : State α ε), Label.abandon ∉ tr →
      exec ids loadFunc tr s₀ = some s →
      Core ids loadFunc s₀ → (∀ e, ¬ FailedWith e s) → Core ids loadFunc s := by
  intro tr
  induction tr with
  | nil =>
    intro s₀ s _ h c _
    simp only [exec, Option.some.injEq] at h
    exact h ▸ c
  | cons l tr ih =>
    intro s₀ s hq h c hnf
    simp only [exec] at h
    cases h1 : step ids loadFunc l s₀ with
    | none => simp [h1] at h
    | some s₁ =>
      rw [h1] at h
      simp only [Option.some_bind] at h
      have hl : l ≠ .abandon := fun e => hq (e ▸ List.mem_cons_self _ _)
      refine ih s₁ s (fun hm => hq (List.mem_cons_of_mem _ hm)) h
        (core_step (step_sound h1) c hl ?_) hnf
      intro e he
      exact hnf e (failedWith_exec e tr s₁ s h (Or.inl he))

/-- A run after which `loadDetails` has returned has no return of the dispatcher on
`ctx.Done()`. -/
theorem no_abandon_of_returned {α ε : Type} (done : Bool) (ids : List String)
    (loadFunc : itemLoadFunc α ε) (tr : List Label) (s : State α ε)
    (hs : exec ids loadFunc tr (init done) = some s) (hret : s.hasReturned = true) :
    Label.abandon ∉ tr := by
  intro hmem
  obtain ⟨tr₁, tr₂, rfl⟩ := List.append_of_mem hmem
  rw [exec_append] at hs
  cases h₁ : exec ids loadFunc tr₁ (init done) with
  | none => simp [h₁] at hs
  | some s₁ =>
    rw [h₁] at hs
    simp only [Option.some_bind, exec] at hs
    cases h₂ : step ids loadFunc .abandon s₁ with
    | none => simp [h₂] at hs
    | some s₂ =>
      rw [h₂] at hs
      simp only [Option.some_bind] at hs
      have inv : Inv s₁ :=
        exec_induction Inv (fun _ _ _ h => inv_step h) tr₁ (init done) s₁ h₁ (inv_init done)
      have lost : Lost s₂ := lost_abandon (step_sound h₂) inv
      have := (exec_induction Lost (fun _ _ _ h => lost_step h) tr₂ s₂ s hs lost).inside
      rw [hret] at this
      simp at this

/-- When `loadDetails` has returned while `Core` holds, every id has been fetched
without error. -/
theorem Core.all_answered {α ε : Type} {ids : List String} {loadFunc : itemLoadFunc α ε}
    {s : State α ε} (c : Core ids loadFunc s) (hret : s.hasReturned = true) :
    ∀ id, id ∈ ids → ∃ b, (loadFunc b id).err = none := by
  intro id hid
  have hcl : s.closed = true := by
    rcases c.caller with h | h
    · simp [State.hasReturned, h] at hret
    · exact h.2
  have hd : s.disp = .exited := c.shut.mp hcl
  have hwg : s.wg = 0 := c.closing (Or.inr hd)
  have hcount := c.count
  have hpos := c.pos
  simp only [hd, DispatcherPc.position, DispatcherPc.counted] at hcount hpos
  have hzero : tasksCounted s.tasks = 0 := by omega
  have horder := c.order
  rw [hpos, List.take_length] at horder
  rw [← horder] at hid
  obtain ⟨t, ht, rfl⟩ := List.mem_map.mp hid
  have hc := counted_eq_zero_of_mem s.tasks hzero t ht
  exact c.clean t ht (sent_of_counted_eq_zero t.2 hc)

/-- If the fetch of some id fails whether the context is done or not, `loadDetails`
does not return items, however it is called and whatever the schedule: when it returns,
it returns no items and an error. -/
theorem returns_error_of_always_failing_id {α ε : Type} (done : Bool) (ids : List String)
    (loadFunc : itemLoadFunc α ε) (id : String) (hid : id ∈ ids)
    (hbad : ∀ b, (loadFunc b id).err ≠ none)
    (tr : List Label) (r : Option (List α) × Option ε)
    (h : loadDetails done ids loadFunc tr = some r) : r.1 = none ∧ ∃ e, r.2 = some e := by
  obtain ⟨s, hs, hc⟩ := loadDetails_eq_some h
  have inv : Inv s :=
    exec_induction Inv (fun _ _ _ h => inv_step h) tr (init done) s hs (inv_init done)
  have hret : s.hasReturned = true := by simp [State.hasReturned, hc]
  rcases inv.shape _ _ hc with ⟨h1, h2⟩ | h2
  · exfalso
    have hnf : ∀ e, ¬ FailedWith e s := by
      intro e hf
      rcases hf with hf | hf | hf
      · rw [hc] at hf; simp at hf
      · rw [hc] at hf; simp at hf
      · rw [hc, h2] at hf; simp at hf
    have c := core_exec tr (init done) s (no_abandon_of_returned done ids loadFunc tr s hs hret)
      hs (core_init done ids loadFunc) hnf
    obtain ⟨b, hb⟩ := c.all_answered hret id hid
    exact hbad b hb
  · exact h2

/-- C6, as stated, on the one id `"a"` with a load function that never fails.  Called
with a context that is done, or with a context that the caller cancels after
`wg.Add(1)`, the `select` of lines 52-56 can take `ctx.Done()`.  The call is then in a
state without a step in which `loadDetails` has not returned, and however the schedule
goes on it returns nothing, although every fetch succeeds. -/
theorem loadDetails_fetch_complete_needs_live_context :
    (∀ c id, (echo c id).err = none) ∧
      exec ["a"] echo [.next, .abandon] (init true) = some ctxStuck ∧
      exec ["a"] echo [.next, .ctxDone, .abandon] (init false) = some ctxStuck ∧
      ctxStuck.hasReturned = false ∧
      (∀ l, step ["a"] echo l ctxStuck = none) ∧
      (∀ tr, loadDetails true ["a"] echo ([.next, .abandon] ++ tr) = none) ∧
      (∀ tr, loadDetails false ["a"] echo ([.next, .ctxDone, .abandon] ++ tr) = none) :=
  have hstuck : ∀ l, step ["a"] echo l ctxStuck = none :=
    stuck_of_waiting _ _ ctxStuck rfl (by decide) (by decide) rfl
      (by intro e h; simp [ctxStuck] at h) rfl
  ⟨fun _ _ => rfl, by decide, by decide, rfl, hstuck,
    loadDetails_none_of_stuck true _ _ [.next, .abandon] ctxStuck (by decide) rfl hstuck,
    loadDetails_none_of_stuck false _ _ [.next, .ctxDone, .abandon] ctxStuck (by decide) rfl
      hstuck⟩

/-- C6, amended.  Fetch completeness of `loadDetails`.  Let every fetch of an id of `ids`
succeed while the context is live, let the call be made with a live context, and let
`s` be a state that the call reaches by the steps `tr`, whatever the schedule, without
the caller's context being cancelled.  Then `tr` has at most `8 * len(ids) + 8` steps;
as long as `loadDetails` has not returned in `s` some goroutine can take a step, and
some continuation of `tr` without a cancellation of the caller's context ends in a
return; and if `loadDetails` has returned, it has returned a nil error and exactly
`len(ids)` items that are a permutation of the items fetched for the ids. -/
theorem loadDetails_fetch_complete {α ε : Type} (ids : List String)
    (loadFunc : itemLoadFunc α ε)
    (hok : ∀ id, id ∈ ids → (loadFunc false id).err = none)
    (tr : List Label) (hlive : Label.ctxDone ∉ tr) (s : State α ε)
    (hs : exec ids loadFunc tr (init false) = some s) :
    tr.length ≤ 8 * ids.length + 8 ∧
      (s.hasReturned = false → ∃ l s', l ≠ .ctxDone ∧ step ids loadFunc l s = some s') ∧
      (∃ tr', Label.ctxDone ∉ tr' ∧
        (loadDetails false ids loadFunc (tr ++ tr')).isSome = true) ∧
      (∀ r, loadDetails false ids loadFunc tr = some r →
        r.2 = none ∧ ∃ xs, r.1 = some xs ∧ xs.length = ids.length ∧
          xs.Perm (ids.map (fun id => (loadFunc false id).item))) := by
  have inv : Inv s :=
    exec_induction Inv (fun _ _ _ h => inv_step h) tr (init false) s hs (inv_init false)
  have g : Good ids loadFunc s :=
    exec_induction_on (Good ids loadFunc) (fun l => l ≠ .ctxDone)
      (fun _ _ _ hl h g => good_step h g hl (no_error_step hok h g)) tr (init false) s
      (fun l hl e => hlive (e ▸ hl)) hs (good_init ids loadFunc)
  have hlen := exec_stepsLeft tr (init false) s hs
  have h0 : stepsLeft ids (init false : State α ε) = 8 * ids.length + 8 := by
    simp [stepsLeft, init, DispatcherPc.stepsLeft, tasksStepsLeft, ConsumerPc.stepsLeft]
  refine ⟨by omega, g.progress inv, ?_, ?_⟩
  · obtain ⟨tr', s', h0', h1, h2⟩ := Good.can_return hok _ s (le_refl _) g inv
    refine ⟨tr', h0', ?_⟩
    unfold loadDetails
    rw [exec_append, hs]
    simp only [Option.some_bind, h1]
    cases hc : s'.cons with
    | returned items err => simp [hc]
    | receive => simp [State.hasReturned, hc] at h2
    | cancel e => simp [State.hasReturned, hc] at h2
    | drain e => simp [State.hasReturned, hc] at h2
  · intro r hr
    obtain ⟨s₁, hs₁, hc⟩ := loadDetails_eq_some hr
    rw [hs] at hs₁
    simp only [Option.some.injEq] at hs₁
    subst hs₁
    exact g.result r.1 r.2 hc

/-- C6, amended, at two ids, on a run in which the second item is delivered first. -/
theorem loadDetails_fetch_complete_witness :
    loadDetails false ["a", "b"] echo twoRun = some (some ["b", "a"], none) ∧
      twoRun.length ≤ 8 * 2 + 8 ∧
      (∀ r, loadDetails false ["a", "b"] echo twoRun = some r →
        r.2 = none ∧ ∃ xs, r.1 = some xs ∧ xs.length = 2 ∧ xs.Perm ["a", "b"]) :=
  have h := loadDetails_fetch_complete ["a", "b"] echo (fun _ _ => rfl) twoRun (by decide)
    twoDone (by decide)
  ⟨by decide, h.1, h.2.2.2⟩

/-- C8. Bounded concurrency of `loadDetails`.  In every state that a call reaches,
whatever the ids, the load function and the schedule, and whether and when the caller's
context is done, the number of invocations of the load function that have started and
not returned is at most `maxConcurrency = 10`: it is at most the number of tasks that
hold a slot, these slots together with the one the dispatcher may hold for the task it
is about to start are the values buffered in `sem`, and `sem` holds at most
`maxConcurrency` values. -/
theorem loadDetails_bounded_concurrency {α ε : Type} (done : Bool) (ids : List String)
    (loadFunc : itemLoadFunc α ε) (tr : List Label) (s : State α ε)
    (hs : exec ids loadFunc tr (init done) = some s) :
    inFlight s ≤ maxConcurrency ∧ maxConcurrency = 10 ∧
      inFlight s ≤ slotsHeld s.tasks ∧
      s.sem = slotsHeld s.tasks + s.disp.holdsSlot ∧
      s.sem ≤ maxConcurrency := by
  have inv : Inv s :=
    exec_induction Inv (fun _ _ _ h => inv_step h) tr (init done) s hs (inv_init done)
  have h1 := inFlight_le_slotsHeld s
  have h2 := inv.slots
  have h3 := inv.bound
  exact ⟨by omega, rfl, h1, h2, h3⟩

/-- C8 at eleven ids, in a state in which ten invocations are in flight and the
dispatcher waits for a slot for the eleventh id. -/
theorem loadDetails_bounded_concurrency_witness :
    exec elevenIds echo busyRun (init false) = some busyState ∧ inFlight busyState = 10 ∧
      inFlight busyState ≤ maxConcurrency :=
  ⟨by decide, by decide,
    (loadDetails_bounded_concurrency false elevenIds echo busyRun busyState (by decide)).1⟩

/-- C7, the code on two ids of which the first fails.  After the caller has received the
error and cancelled, the `select` for the second id can take `ctx.Done()`.  The run ends
in a state in which the only task has ended, the dispatcher waits on `wg = 1`,
`resultsCh` is open, the caller waits in the draining loop, and no goroutine has a
step: however the schedule goes on, `loadDetails` does not return, neither the error
nor anything else.  Where `loadDetails` does return on ids of which one fails, it
returns no items and an error: so for an id whose fetch fails while the context is
live, when the caller's context stays live, and so for an id whose fetch fails
whatever the context, however the call is made.  A return after the caller has been
handed a first error `e` is with no items and `e` itself. -/
theorem loadDetails_fail_fast_stuck :
    exec ["a", "b"] failFirst twoAbandonRun (init false) = some twoStuck ∧
      twoStuck.hasReturned = false ∧
      (∀ l, step ["a", "b"] failFirst l twoStuck = none) ∧
      (∀ tr, loadDetails false ["a", "b"] failFirst (twoAbandonRun ++ tr) = none) ∧
      (∀ (ids : List String) (loadFunc : itemLoadFunc String String) (id : String),
        id ∈ ids → (loadFunc false id).err ≠ none →
        ∀ (tr : List Label), Label.ctxDone ∉ tr →
          ∀ (r : Option (List String) × Option String),
            loadDetails false ids loadFunc tr = some r → r.1 = none ∧ ∃ e, r.2 = some e) ∧
      (∀ (done : Bool) (ids : List String) (loadFunc : itemLoadFunc String String)
        (id : String), id ∈ ids → (∀ b, (loadFunc b id).err ≠ none) →
        ∀ (tr : List Label) (r : Option (List String) × Option String),
          loadDetails done ids loadFunc tr = some r → r.1 = none ∧ ∃ e, r.2 = some e) ∧
      (∀ (done : Bool) (ids : List String) (loadFunc : itemLoadFunc String String)
        (tr₁ tr₂ : List Label) (k : Nat) (e : String) (s₁ s₂ : State String String)
        (r : Option (List String) × Option String),
        exec ids loadFunc tr₁ (init done) = some s₁ →
        step ids loadFunc (.send k) s₁ = some s₂ → s₂.cons = .cancel e →
        loadDetails done ids loadFunc (tr₁ ++ .send k :: tr₂) = some r →
        r = (none, some e)) :=
  have hstuck : ∀ l, step ["a", "b"] failFirst l twoStuck = none :=
    stuck_of_waiting _ _ twoStuck rfl (by decide) (by decide) rfl
      (by intro e h; simp [twoStuck] at h) rfl
  ⟨by decide, by decide, hstuck,
    loadDetails_none_of_stuck false _ _ twoAbandonRun twoStuck (by decide) (by decide)
      hstuck,
    returns_error_of_failing_id, returns_error_of_always_failing_id, returns_first_error⟩

/-- C9, the code on eleven ids of which the first fails.  Ten tasks are started and the
dispatcher waits in the `select` for a free slot when the caller cancels; the `select`
takes `ctx.Done()` and every started task then runs to its end.  In the state reached,
all ten tasks have ended, `wg` is `1` and not `0`, the dispatcher waits in `wg.Wait()`,
`resultsCh` is open, the caller waits in the draining loop, and no goroutine has a
step: however the schedule goes on, `loadDetails` does not return.  More generally,
once the `select` has taken `ctx.Done()` no schedule of any call leads to a return of
`loadDetails`. -/
theorem loadDetails_cancel_deadlock :
    exec elevenIds failFirst elevenAbandonRun (init false) = some elevenStuck ∧
      elevenStuck.disp = .wait ∧
      elevenStuck.wg = 1 ∧
      elevenStuck.tasks.length = 10 ∧
      (∀ t, t ∈ elevenStuck.tasks → t.2 = .exited) ∧
      elevenStuck.closed = false ∧
      elevenStuck.hasReturned = false ∧
      (∀ l, step elevenIds failFirst l elevenStuck = none) ∧
      (∀ tr, loadDetails false elevenIds failFirst (elevenAbandonRun ++ tr) = none) ∧
      (∀ (done : Bool) (ids : List String) (loadFunc : itemLoadFunc String String)
        (tr₁ tr₂ : List Label) (s₁ s₂ : State String String),
        exec ids loadFunc tr₁ (init done) = some s₁ →
        step ids loadFunc .abandon s₁ = some s₂ →
        loadDetails done ids loadFunc (tr₁ ++ .abandon :: tr₂) = none) :=
  have hstuck : ∀ l, step elevenIds failFirst l elevenStuck = none :=
    stuck_of_waiting _ _ elevenStuck rfl (by decide) (by decide) rfl
      (by intro e h; simp [elevenStuck] at h) rfl
  ⟨by decide, rfl, rfl, rfl, by decide, rfl, rfl, hstuck,
    loadDetails_none_of_stuck false _ _ elevenAbandonRun elevenStuck (by decide) rfl hstuck,
    never_returns_after_abandon⟩

end RobinhoodExport
